import Mathlib

/-!
Verification development for the cograph-editing engine
(`triples.py`, `graphs.py`, `editing.py`).

The Python sources are shallowly embedded below.  Graphs follow the
networkx semantics used by the code: a node list in insertion order and an
edge list in insertion order, each undirected edge stored once in the
orientation it was first added; `has_edge` is orientation-insensitive.
Triple sets (Python dicts keyed by ordered pairs with witness lists as
values) are embedded as insertion-ordered association lists.

External collaborators (the tralda cograph-recognition oracle and the
networkx `stoer_wagner` / `kernighan_lin_bisection` bipartition oracles,
plus `random.shuffle`) are not part of this repository; per the spec they
are interfaces.  The recognition oracle is modelled from the spec (an
induced-P4-freeness decision procedure); the bipartition and shuffle
oracles are taken as function parameters, constrained by the validity
hypotheses the spec states for them where a theorem needs them.

Recursive procedures of the source terminate because every recursive call
strictly shrinks the active vertex set; the embedding makes this explicit
with a fuel parameter initialised to `|V| + 1`, which the development
shows (where a claim depends on it) is never exhausted.
-/

namespace CographEditing

/-- networkx-style undirected simple graph: nodes and edges in insertion
order, every undirected edge stored once. -/
structure Graph where
  nodes : List ℕ
  edges : List (ℕ × ℕ)
deriving Repr, DecidableEq

def emptyGraph : Graph := ⟨[], []⟩

/-- `G.has_edge(x, y)` — adjacency test, insensitive to the stored
orientation of the edge. -/
def Graph.hasEdge (G : Graph) (x y : ℕ) : Bool :=
  G.edges.any fun e => (e.1 == x && e.2 == y) || (e.1 == y && e.2 == x)

/-- `G.add_node(v)`. -/
def Graph.addNode (G : Graph) (v : ℕ) : Graph :=
  if v ∈ G.nodes then G else ⟨G.nodes ++ [v], G.edges⟩

/-- `G.add_nodes_from(vs)`. -/
def Graph.addNodes (G : Graph) (vs : List ℕ) : Graph :=
  vs.foldl Graph.addNode G

/-- `G.add_edge(x, y)`: inserts missing endpoints, then the edge unless an
orientation of it is already present. -/
def Graph.addEdge (G : Graph) (x y : ℕ) : Graph :=
  let G1 := (G.addNode x).addNode y
  if G1.hasEdge x y then G1 else ⟨G1.nodes, G1.edges ++ [(x, y)]⟩

/-- `G.add_edges_from(es)`. -/
def Graph.addEdges (G : Graph) (es : List (ℕ × ℕ)) : Graph :=
  es.foldl (fun g e => g.addEdge e.1 e.2) G

/-- `G.remove_edge(x, y)` (removes the edge in either orientation). -/
def Graph.removeEdge (G : Graph) (x y : ℕ) : Graph :=
  ⟨G.nodes, G.edges.filter fun e => !((e.1 == x && e.2 == y) || (e.1 == y && e.2 == x))⟩

/-- `G.remove_nodes_from(vs)`: drops the nodes and all incident edges. -/
def Graph.removeNodes (G : Graph) (vs : List ℕ) : Graph :=
  ⟨G.nodes.filter fun v => decide (v ∉ vs),
   G.edges.filter fun e => decide (e.1 ∉ vs) && decide (e.2 ∉ vs)⟩

/-- `G.neighbors(x)` read off the edge list. -/
def Graph.neighbors (G : Graph) (x : ℕ) : List ℕ :=
  G.edges.foldr (fun e acc =>
    if e.1 == x then e.2 :: acc else if e.2 == x then e.1 :: acc else acc) []

/-- `graphs.union(G1, G2)`: copy of `G1`, then `G2`'s nodes and edges. -/
def union (G1 G2 : Graph) : Graph :=
  (G1.addNodes G2.nodes).addEdges G2.edges

/-- All ordered pairs `(V[i], V[j])` with `i < j`, in source order. -/
def pairsOf : List ℕ → List (ℕ × ℕ)
  | [] => []
  | x :: xs => (xs.map fun y => (x, y)) ++ pairsOf xs

/-- `graphs.join(G1, G2)`: the union plus every cross edge. -/
def join (G1 G2 : Graph) : Graph :=
  (union G1 G2).addEdges (G1.nodes.flatMap fun x => G2.nodes.map fun y => (x, y))

/-- `nx.complement(G)`: same nodes, exactly the non-adjacent distinct pairs. -/
def complement (G : Graph) : Graph :=
  ⟨G.nodes, (pairsOf G.nodes).filter fun e => !G.hasEdge e.1 e.2⟩

/-- `editing.n_deletions(G, H)`. -/
def n_deletions (G H : Graph) : ℕ :=
  G.edges.countP fun e => !H.hasEdge e.1 e.2

/-- `editing.n_edits(G, H)`: deletions plus additions. -/
def n_edits (G H : Graph) : ℕ :=
  (G.edges.countP fun e => !H.hasEdge e.1 e.2) +
    (H.edges.countP fun e => !G.hasEdge e.1 e.2)

/-- `editing.n_sub_edits(E, E_edited)`: symmetric difference of the two
edge lists viewed as Python sets of (orientation-sensitive) tuples. -/
def n_sub_edits (E Eed : List (ℕ × ℕ)) : ℕ :=
  (Eed.dedup.filter fun e => decide (e ∉ E)).length +
    (E.dedup.filter fun e => decide (e ∉ Eed)).length

/-- Modelled from the spec: the external cograph-recognition oracle
(`tralda.cograph.LinearCographDetector(G).recognition()`), specified as the
decision procedure for the P4-free property: `a-b-c-d` is an induced path
on four distinct vertices. -/
def inducedP4 (G : Graph) (a b c d : ℕ) : Bool :=
  decide (a ≠ b) && decide (a ≠ c) && decide (a ≠ d) &&
  decide (b ≠ c) && decide (b ≠ d) && decide (c ≠ d) &&
  G.hasEdge a b && G.hasEdge b c && G.hasEdge c d &&
  !G.hasEdge a c && !G.hasEdge a d && !G.hasEdge b d

/-- Modelled from the spec: `is_cograph(G)` — true iff `G` has no induced
path on four vertices. -/
def is_cograph (G : Graph) : Bool :=
  !(G.nodes.any fun a => G.nodes.any fun b => G.nodes.any fun c =>
      G.nodes.any fun d => inducedP4 G a b c d)

/-- Triple dictionaries: insertion-ordered association lists from ordered
pair keys to witness lists, as the Python dicts of `triples.py`. -/
abbrev Triples := List ((ℕ × ℕ) × List ℕ)

/-- Exact-key dictionary lookup `R[(x, y)]`. -/
def keyLookup (R : Triples) (x y : ℕ) : Option (List ℕ) :=
  (R.find? fun ent => ent.1 == (x, y)).map (·.2)

/-- Witness list under the unordered pair: the `(x, y)` key if present,
else the `(y, x)` key (the source's try/except swap), else empty. -/
def witL (R : Triples) (x y : ℕ) : List ℕ :=
  match keyLookup R x y with
  | some l => l
  | none => (keyLookup R y x).getD []

/-- `triples.is_triple(G, (x, y, z), R1, R2)`. -/
def is_triple (G : Graph) (t : ℕ × ℕ × ℕ) (R1 R2 : Bool) : Bool :=
  let x := t.1
  let y := t.2.1
  let z := t.2.2
  if !G.hasEdge y z && !G.hasEdge x z then
    if R1 && G.hasEdge x y then true
    else if R2 && !G.hasEdge x y then
      (G.neighbors x).any fun n => G.hasEdge y n && !G.hasEdge z n
    else false
  else if G.hasEdge x z && G.hasEdge y z then
    if R1 && !G.hasEdge x y then true
    else if R2 && G.hasEdge x y then
      (G.neighbors z).any fun n => !G.hasEdge x n && !G.hasEdge y n
    else false
  else false

/-- Append witness `v` under key `k`, creating the key at the end of the
dictionary if absent (Python dict insertion order). -/
def addWitness (D : Triples) (k : ℕ × ℕ) (v : ℕ) : Triples :=
  if (D.find? fun ent => ent.1 == k).isSome then
    D.map fun ent => if ent.1 == k then (ent.1, ent.2 ++ [v]) else ent
  else D ++ [(k, [v])]

/-- `triples.get_triples(G, R1, R2)`: for every `i < j` pair and every
third vertex, accumulate the witnesses of satisfied triples. -/
def get_triples (G : Graph) (R1 R2 : Bool) : Triples :=
  (pairsOf G.nodes).foldl (fun D p =>
    G.nodes.foldl (fun D v =>
      if v ≠ p.1 ∧ v ≠ p.2 then
        if is_triple G (p.1, p.2, v) R1 R2 then addWitness D p v else D
      else D) D) []

/-- `triples.triple_subset(R, L)`: keep keys with both endpoints in `L`,
filter each witness list to `L` (keys may be left with empty lists). -/
def triple_subset (R : Triples) (Lr : List ℕ) : Triples :=
  (R.filter fun ent => decide (ent.1.1 ∈ Lr) && decide (ent.1.2 ∈ Lr)).map
    fun ent => (ent.1, ent.2.filter fun z => decide (z ∈ Lr))

/-- Edge-weighted graph as handed to the bipartition oracles. -/
structure WGraph where
  g : Graph
  w : List ((ℕ × ℕ) × ℕ)
deriving Repr, DecidableEq

/-- `graphs.comp_graph(R, V)`: all of `V` as nodes, an edge per key with a
non-empty witness list and both endpoints in `V`.  The weight recorded is
the source's `len([x, y])` — the length of the two-element list, i.e.
always 2 (the slip the development exhibits for claim C2). -/
def comp_graph (R : Triples) (V : List ℕ) : WGraph :=
  let A : WGraph := ⟨emptyGraph.addNodes V, []⟩
  let edges := (R.filter fun ent =>
    !ent.2.isEmpty && decide (ent.1.1 ∈ V) && decide (ent.1.2 ∈ V)).map (·.1)
  edges.foldl (fun A e =>
    ⟨A.g.addEdge e.1 e.2, A.w ++ [(e, ([e.1, e.2] : List ℕ).length)]⟩) A

/-- Weight attribute of an edge of a weighted graph (latest write wins,
orientation-insensitive, like a networkx edge attribute). -/
def wgWeight (A : WGraph) (x y : ℕ) : Option ℕ :=
  (A.w.reverse.find? fun p => p.1 == (x, y) || p.1 == (y, x)).map (·.2)

/-- One saturation step of component growth: append every yet-unreached
node adjacent to the reached set. -/
def growStep (G : Graph) (S : List ℕ) : List ℕ :=
  S ++ G.nodes.filter fun w => decide (w ∉ S) && S.any fun u => G.hasEdge u w

/-- Iterated growth. -/
def growN (G : Graph) : ℕ → List ℕ → List ℕ
  | 0, S => S
  | k + 1, S => growN G k (growStep G S)

/-- Connected component of `v`: grow `{v}` to saturation (at most `|V|`
steps are ever needed). -/
def compOf (G : Graph) (v : ℕ) : List ℕ :=
  growN G G.nodes.length [v]

/-- `nx.connected_components(G)` in node order. -/
def connComps (G : Graph) : List (List ℕ) :=
  G.nodes.foldl (fun comps v =>
    if comps.any fun c => decide (v ∈ c) then comps else comps ++ [compOf G v]) []

/-- Type of the external bipartition oracles (`nx.stoer_wagner`,
`networkx.community.kernighan_lin_bisection`): a weighted graph in, a
2-partition of its vertices out. -/
abbrev CutFn := WGraph → List ℕ × List ℕ

/-- Remove from the key of the cut edge `e` (looked up first as stored,
then swapped — the source's try/except) every witness inside `M`, popping
the key if no witness remains. -/
def pruneKey (R : Triples) (e : ℕ × ℕ) (M : List ℕ) : Triples :=
  let upd := fun (k : ℕ × ℕ) (l : List ℕ) =>
    let l2 := l.filter fun z => decide (z ∉ M)
    if l2.isEmpty then R.filter fun ent => ent.1 != k
    else R.map fun ent => if ent.1 == k then (k, l2) else ent
  match keyLookup R e.1 e.2 with
  | some l => upd (e.1, e.2) l
  | none =>
    match keyLookup R e.2 e.1 with
    | some l => upd (e.2, e.1) l
    | none => R

/-- The crossing edges of the bipartition `(V1, V2)`, as the source's
`cut` list comprehension over `CG.edges`. -/
def cut_edges_of (CG : WGraph) (V1 V2 : List ℕ) : List (ℕ × ℕ) :=
  CG.g.edges.filter fun e =>
    (decide (e.1 ∈ V1) && decide (e.2 ∈ V2)) ||
      (decide (e.1 ∈ V2) && decide (e.2 ∈ V1))

/-- The source's pruning loop over the cut edges. -/
def ms_prune_fold (R : Triples) (cut : List (ℕ × ℕ)) (N : List ℕ) : Triples :=
  cut.foldl (fun R e => pruneKey R e N) R

/-- `editing.min_cut_split`, fuelled (each recursive call strictly shrinks
the leaf set, so the wrapper's fuel `|L| + 1` is never exhausted; a fuel
of 0 returns `R` unchanged only on that unreachable path). -/
def min_cut_split_go (swO klO : CutFn) (half_cut : Bool) :
    ℕ → Triples → List ℕ → Triples
  | 0, R, _ => R
  | fuel + 1, R, L =>
    if L.length < 3 then R
    else
      let CG := comp_graph R L
      let comps := connComps CG.g
      if comps.length > 1 then
        comps.foldl (fun R comp => min_cut_split_go swO klO half_cut fuel R comp) R
      else
        let V12 := if half_cut then klO CG else swO CG
        let R1 := ms_prune_fold R (cut_edges_of CG V12.1 V12.2) CG.g.nodes
        let R2 := if V12.1.length > 2 then min_cut_split_go swO klO half_cut fuel R1 V12.1 else R1
        if V12.2.length > 2 then min_cut_split_go swO klO half_cut fuel R2 V12.2 else R2

/-- The cut branch of `min_cut_split` (named for the proofs below; the
recursion equation `min_cut_split_go_succ` ties it to the definition). -/
def ms_cut_step (swO klO : CutFn) (half_cut : Bool) (fuel : ℕ)
    (R : Triples) (L : List ℕ) : Triples :=
  let CG := comp_graph R L
  let V12 := if half_cut then klO CG else swO CG
  let R1 := ms_prune_fold R (cut_edges_of CG V12.1 V12.2) CG.g.nodes
  let R2 := if V12.1.length > 2 then min_cut_split_go swO klO half_cut fuel R1 V12.1 else R1
  if V12.2.length > 2 then min_cut_split_go swO klO half_cut fuel R2 V12.2 else R2

/-- `editing.min_cut_split(R, L, half_cut)` (the `init` copy is the
identity in a pure embedding). -/
def min_cut_split (swO klO : CutFn) (half_cut : Bool) (R : Triples) (L : List ℕ) : Triples :=
  min_cut_split_go swO klO half_cut (L.length + 1) R L

/-- Exceptions of the embedded pipeline. -/
inductive PyErr where
  /-- `Exception("R is not compatible.")` from `BUILD_cograph`. -/
  | inconsistent
  /-- A NodeView lookup `L[k]` produced the data dict of node `k`, which
  `add_node` / `add_edge` then rejects as unhashable. -/
  | typeErr
  /-- A NodeView lookup `L[k]` with no node labelled `k`. -/
  | keyErr
  /-- `UnboundLocalError`: `G_min` referenced before assignment. -/
  | unbound
  /-- Fuel exhaustion (unreachable at the wrappers' fuel). -/
  | fuelOut
deriving Repr, DecidableEq

/-- `graphs.BUILD_cograph`, fuelled.  `nv` is true exactly when `L` is the
NodeView `G.nodes` of the top-level call from `min_cut_edit`: there,
`L[0]` is a networkx NodeView lookup of the *label* 0 — it returns the
data dict of a node literally labelled 0 (which `add_node`/`add_edge`
reject as unhashable) or raises KeyError — so the `|L| = 1` base case and
the `|L| = 2, label = 1` base case raise instead of indexing.  Recursive
calls pass `list(C)` and index normally. -/
def BUILD_go (swap : Bool) : ℕ → Triples → List ℕ → ℕ → Except PyErr Graph
  | 0, _, _, _ => .error .fuelOut
  | fuel + 1, R, L, label =>
    if L.length == 1 then
      if swap then .error (if 0 ∈ L then .typeErr else .keyErr)
      else .ok (emptyGraph.addNode (L.headD 0))
    else if L.length == 2 then
      let G := emptyGraph.addNodes L
      if label == 1 then
        if swap then
          .error (if 0 ∈ L then (if 1 ∈ L then .typeErr else .keyErr) else .keyErr)
        else .ok (G.addEdge (L.headD 0) ((L.drop 1).headD 0))
      else .ok G
    else
      let CG := comp_graph R L
      let comps := connComps CG.g
      if comps.length == 1 then .error .inconsistent
      else
        comps.foldlM (fun G C =>
          if label == 1 then
            (BUILD_go false fuel (triple_subset R C) C 0).map fun H => join G H
          else
            (BUILD_go false fuel (triple_subset R C) C 1).map fun H => union G H)
          emptyGraph

/-- `graphs.BUILD_cograph(R, L, label)` as called with a NodeView `L`. -/
def BUILD_cograph (R : Triples) (L : List ℕ) (label : ℕ) : Except PyErr Graph :=
  BUILD_go true (L.length + 1) R L label

/-- `editing.min_cut_edit(G, half_cut, R1, R2)`. -/
def min_cut_edit (swO klO : CutFn) (half_cut R1 R2 : Bool) (G : Graph) :
    Except PyErr Graph := do
  let R := get_triples G R1 R2
  let R_new := min_cut_split swO klO half_cut R G.nodes
  let H ← BUILD_cograph R_new G.nodes 0
  let H_comp := complement H
  if n_edits G H < n_edits G H_comp then return H else return H_comp

/-- Type of the `random.shuffle` oracle: a permutation of its input,
indexed by the iteration that asks for it. -/
abbrev ShufFn := ℕ → List (ℕ × ℕ) → List (ℕ × ℕ)

/-- `editing.minimal_min_cut_edit(G, iterations, half_cut, R1, R2)`.
`best_score` is the constant `len(G.edges)` (the source never updates it)
and `G_min` starts unassigned — referencing it unassigned at the end is
the `UnboundLocalError` path. -/
def minimal_min_cut_edit (swO klO : CutFn) (shuf : ShufFn)
    (half_cut R1 R2 : Bool) (G : Graph) (iterations : ℕ) : Except PyErr Graph := do
  let H ← min_cut_edit swO klO half_cut R1 R2 G
  let cut_edges := G.edges.filter fun e => !H.hasEdge e.1 e.2
  let best_score := G.edges.length
  let G_min := (List.range iterations).foldl (fun (G_min : Option Graph) i =>
    let G_tmp := (shuf i cut_edges).foldl (fun Gt e =>
      let Gt2 := Gt.addEdge e.1 e.2
      if !is_cograph Gt2 then Gt2.removeEdge e.1 e.2 else Gt2) H
    if n_deletions G G_tmp < best_score then some G_tmp else G_min) none
  match G_min with
  | some g => return g
  | none => .error .unbound

/-- Edge weights installed by `direct_graph_cut`'s init block: each
existing edge gets the witness count of its pair (0 when the pair is not
a triple key). -/
def edgeWeights (R : Triples) (G : Graph) : List ((ℕ × ℕ) × ℕ) :=
  G.edges.map fun e => (e, (witL R e.1 e.2).length)

/-- `editing.direct_graph_cut`, fuelled.  In the disconnected branch the
source accumulates `G_new = union(Gnew, ...)` but returns `Gnew`, the
never-updated empty graph; the embedding threads both variables to keep
that behaviour.  Weights live in the threaded `w` (graph attributes in
the source travel with the copies the same way). -/
def direct_graph_cut_go (swO klO : CutFn) (half_cut R1 R2 : Bool) :
    ℕ → Graph → List ((ℕ × ℕ) × ℕ) → Bool → Except PyErr Graph
  | 0, _, _, _ => .error .fuelOut
  | fuel + 1, G_, w, init =>
    if is_cograph G_ then .ok G_
    else
      let G := G_
      let comps := connComps G
      let w := if init then edgeWeights (get_triples G R1 R2) G else w
      if comps.length > 1 then do
        let st ← comps.foldlM (fun (st : Graph × Graph) comp => do
          let G_comp := G.removeNodes (G.nodes.filter fun v => decide (v ∉ comp))
          let r ← direct_graph_cut_go swO klO half_cut R1 R2 fuel G_comp w false
          return (st.1, union st.1 r)) (emptyGraph, emptyGraph)
        return st.1
      else do
        let V12 := if half_cut then klO ⟨G, w⟩ else swO ⟨G, w⟩
        let current_edges := G.edges
        let G2 := G
        let Ga ← direct_graph_cut_go swO klO half_cut R1 R2 fuel (G.removeNodes V12.2) w false
        let Gb ← direct_graph_cut_go swO klO half_cut R1 R2 fuel (G2.removeNodes V12.1) w false
        let G_add := join Ga Gb
        let G_del := union Ga Gb
        if n_sub_edits current_edges G_add.edges < n_sub_edits current_edges G_del.edges then
          return G_add
        else return G_del

/-- `editing.direct_graph_cut(G_, half_cut, R1, R2, init=True)`. -/
def direct_graph_cut (swO klO : CutFn) (half_cut R1 R2 : Bool) (G : Graph) :
    Except PyErr Graph :=
  direct_graph_cut_go swO klO half_cut R1 R2 (G.nodes.length + 1) G [] true

/-- `editing.minimal_graph_cut(G, iterations, half_cut, R1, R2, init)`.
`best_score` is `math.inf`, never updated, so the comparison always
succeeds and `G_min` is the last trial; with zero iterations `G_min` is
referenced unassigned. -/
def minimal_graph_cut (swO klO : CutFn) (shuf : ShufFn)
    (half_cut R1 R2 : Bool) (G : Graph) (iterations : ℕ) : Except PyErr Graph := do
  let G2 ← direct_graph_cut swO klO half_cut R1 R2 G
  let cut_edges := G.edges.filter fun e => !G2.hasEdge e.1 e.2
  let added_edges := G2.edges.filter fun e => !G.hasEdge e.1 e.2
  let edited_edges := cut_edges ++ added_edges
  let best_score : WithTop ℕ := ⊤
  let G_min := (List.range iterations).foldl (fun (G_min : Option Graph) i =>
    let G_tmp := (shuf i edited_edges).foldl (fun Gt e =>
      if Gt.hasEdge e.1 e.2 then
        let Gt2 := Gt.removeEdge e.1 e.2
        if !is_cograph Gt2 then Gt2.addEdge e.1 e.2 else Gt2
      else
        let Gt2 := Gt.addEdge e.1 e.2
        if !is_cograph Gt2 then Gt2.removeEdge e.1 e.2 else Gt2) G2
    if (n_edits G G_tmp : WithTop ℕ) ≤ best_score then some G_tmp else G_min) none
  match G_min with
  | some g => return g
  | none => .error .unbound

/-!  Concrete oracle instances and example graphs used by the closed
theorems below.  `oneRest` splits off the first node: on the constraint
graphs where the theorems use it as the `stoer_wagner` oracle every edge
has the same recorded weight, so separating one vertex of minimum degree
is a legitimate global minimum-weight cut (on a triangle all three
bipartitions have cut weight 4).  `idShuf` is the identity permutation,
a legitimate outcome of `random.shuffle`. -/

def oneRest : CutFn := fun A =>
  match A.g.nodes with
  | [] => ([], [])
  | v :: rest => ([v], rest)

def idShuf : ShufFn := fun _ l => l

def K3 : Graph := emptyGraph.addEdges [(0, 1), (0, 2), (1, 2)]

def P3 : Graph := emptyGraph.addEdges [(0, 1), (1, 2)]

def P4 : Graph := emptyGraph.addEdges [(0, 1), (1, 2), (2, 3)]

def K2 : Graph := emptyGraph.addEdges [(0, 1)]

def single5 : Graph := emptyGraph.addNode 5

def P4iso : Graph := (emptyGraph.addEdges [(0, 1), (1, 2), (2, 3)]).addNode 4

/-- A triple set whose witnesses (5, 6, 7) lie outside the leaf set
`[0, 1, 2]`: the Aho graph over `[0,1,2]` is a triangle, and the cut
pruning of `min_cut_split` removes only witnesses inside the current
node set, so nothing is pruned. -/
def strayR : Triples := [((0, 1), [5]), ((1, 2), [6]), ((0, 2), [7])]

/-- One adjacency step between nodes of `G`. -/
def stepRel (G : Graph) (a b : ℕ) : Prop :=
  G.hasEdge a b = true ∧ a ∈ G.nodes ∧ b ∈ G.nodes

/-- Reachability inside `G`. -/
def Reach (G : Graph) : ℕ → ℕ → Prop := Relation.ReflTransGen (stepRel G)

/-- Adjacency as a proposition. -/
def Graph.adj (G : Graph) (x y : ℕ) : Prop := G.hasEdge x y = true

instance (G : Graph) (x y : ℕ) : Decidable (G.adj x y) :=
  inferInstanceAs (Decidable (_ = true))

/-- The triple rule exactly as the claim states it (for claim C8): a case
split on the adjacency of `z` to `x` and `y`, an R1 disjunct, and an R2
disjunct quantifying over neighbors. -/
def triple_spec (G : Graph) (x y z : ℕ) (R1 R2 : Bool) : Prop :=
  if ¬G.adj z x ∧ ¬G.adj z y then
    (R1 = true ∧ G.adj x y) ∨
      (R2 = true ∧ ¬G.adj x y ∧
        ∃ n, n ∈ G.neighbors x ∧ G.adj n y ∧ ¬G.adj n z)
  else if G.adj z x ∧ G.adj z y then
    (R1 = true ∧ ¬G.adj x y) ∨
      (R2 = true ∧ G.adj x y ∧
        ∃ n, n ∈ G.neighbors z ∧ ¬G.adj n x ∧ ¬G.adj n y)
  else False

/-- Key-list wellformedness of a triple dictionary, as the spec's data
model states it: keys are pairwise distinct, no key pairs a vertex with
itself, and no unordered pair appears in both orientations
("pair order not semantically meaningful but must be canonicalized"). -/
def TWF (R : Triples) : Prop :=
  (R.map (·.1)).Nodup ∧ (∀ k ∈ R.map (·.1), k.1 ≠ k.2) ∧
    ∀ k1 ∈ R.map (·.1), ∀ k2 ∈ R.map (·.1), k1.1 = k2.2 → k1.2 = k2.1 → False

/-- The min-cut / balanced-bisection oracle contract from the spec: on a
(connected, at least 3-node) weighted graph, a 2-partition of its vertex
set into two non-empty sides. -/
def OracleValid (f : CutFn) : Prop :=
  ∀ A : WGraph, 3 ≤ A.g.nodes.length →
    (f A).1 ≠ [] ∧ (f A).2 ≠ [] ∧ ((f A).1 ++ (f A).2).Perm A.g.nodes

/-- The constraint graph of `R'` over the leaf set `C` is disconnected:
some split of `C` into two non-empty sides has no surviving witness inside
`C` for any pair crossing the split.  This is exactly "the Aho graph built
by BUILD at leaf set `C` has more than one connected component". -/
def RGdisconn (R' : Triples) (C : List ℕ) : Prop :=
  ∃ A B : List ℕ, A ≠ [] ∧ B ≠ [] ∧ (A ++ B).Perm C ∧
    ∀ a ∈ A, ∀ b ∈ B, ∀ z ∈ witL R' a b, z ∉ C

/-- Pointwise witness-set shrinkage between triple dictionaries. -/
def Shrink (R2 R1 : Triples) : Prop :=
  ∀ x y z, z ∈ witL R2 x y → z ∈ witL R1 x y

/-! Basic lemmas about the embedding. -/

theorem hasEdge_comm (G : Graph) (x y : ℕ) : G.hasEdge x y = G.hasEdge y x := by
  unfold Graph.hasEdge
  congr 1
  funext e
  rw [Bool.or_comm]

theorem is_triple_ff (G : Graph) (t : ℕ × ℕ × ℕ) : is_triple G t false false = false := by
  simp [is_triple]

/-! Claim theorems. -/

/-- C10: the edit-count function is symmetric — `n_edits(G, H) = n_edits(H, G)`;
the deletions counted in one direction are exactly the additions counted in
the other. -/
theorem C10_n_edits_symm (G H : Graph) : n_edits G H = n_edits H G := by
  unfold n_edits
  exact Nat.add_comm _ _

/-- C7 (counterexample): with `R1 = R2 = False`, `direct_graph_cut` does not
reject the call — it runs the whole editing pipeline on the path graph `P4`
and returns an edited graph, so no InvalidConfiguration error is raised
before (or instead of) the editing work. -/
theorem C7_counterexample :
    direct_graph_cut oneRest oneRest false false false P4 =
      .ok ⟨[0, 1, 2, 3], [(1, 2), (2, 3)]⟩ := by
  rfl

/-- C7 (amended): no entry point checks the `R1`/`R2` configuration; with
both rules disabled, triple extraction simply returns the empty triple
set and the pipelines proceed on it without any error. -/
theorem C7_no_rules_no_triples (G : Graph) : get_triples G false false = [] := by
  unfold get_triples
  have inner : ∀ (p : ℕ × ℕ) (l : List ℕ) (D : Triples),
      l.foldl (fun D v =>
        if v ≠ p.1 ∧ v ≠ p.2 then
          if is_triple G (p.1, p.2, v) false false then addWitness D p v else D
        else D) D = D := by
    intro p l
    induction l with
    | nil => intro D; rfl
    | cons v l ih =>
      intro D
      rw [List.foldl_cons]
      have hb : (if v ≠ p.1 ∧ v ≠ p.2 then
          if is_triple G (p.1, p.2, v) false false = true then addWitness D p v else D
          else D) = D := by
        simp [is_triple_ff]
      rw [hb]
      exact ih D
  have outer : ∀ (ps : List (ℕ × ℕ)) (D : Triples),
      ps.foldl (fun D p =>
        G.nodes.foldl (fun D v =>
          if v ≠ p.1 ∧ v ≠ p.2 then
            if is_triple G (p.1, p.2, v) false false then addWitness D p v else D
          else D) D) D = D := by
    intro ps
    induction ps with
    | nil => intro D; rfl
    | cons p ps ih =>
      intro D
      simp only [List.foldl_cons, inner p G.nodes D]
      exact ih D
  exact outer _ []

/-- C2: `comp_graph` on the triple set `{(0,1): [2,3,4]}` over `V = [0..4]`
produces the claimed node set and edge, but records edge weight 2 (the
source's `len([x, y])`) where the claim requires the witness count
`len(R[x, y]) = 3`. -/
theorem C2_comp_graph_weight_bug :
    (comp_graph [((0, 1), [2, 3, 4])] [0, 1, 2, 3, 4]).g =
        ⟨[0, 1, 2, 3, 4], [(0, 1)]⟩ ∧
      wgWeight (comp_graph [((0, 1), [2, 3, 4])] [0, 1, 2, 3, 4]) 0 1 = some 2 ∧
      (witL [((0, 1), [2, 3, 4])] 0 1).length = 3 := by
  exact ⟨rfl, rfl, rfl⟩

/-- C3: on the disconnected non-cograph `P4iso` (a path on four vertices
plus an isolated fifth vertex) `direct_graph_cut` returns the *empty*
graph — not the disjoint union of per-component results, and with a vertex
set different from `V(G)` — because the source's disconnected branch binds
its accumulator to the misspelled variable `G_new` and returns the
never-updated `Gnew`. -/
theorem C3_direct_graph_cut_disconnected_bug :
    is_cograph P4iso = false ∧ 2 ≤ (connComps P4iso).length ∧
      direct_graph_cut oneRest oneRest false true true P4iso = .ok emptyGraph := by
  exact ⟨rfl, by decide, rfl⟩

/-- C4: `minimal_min_cut_edit` on the triangle with `iterations = 0` does
not return the initial `min_cut_edit` candidate — it raises
`UnboundLocalError`, because `G_min` is never initialised to the candidate
(and `best_score` is never updated inside the loop). -/
theorem C4_minimal_min_cut_edit_crash :
    minimal_min_cut_edit oneRest oneRest idShuf false true true K3 0 =
      .error .unbound := by
  rfl

/-- C5: `minimal_graph_cut` on the triangle with `iterations = 0` raises
`UnboundLocalError` instead of returning a best-of-trials graph: `G_min`
has no fallback assignment (and `best_score` stays `math.inf`, so with
trials it would keep the last, not the best). -/
theorem C5_minimal_graph_cut_crash :
    minimal_graph_cut oneRest oneRest idShuf false true true K3 0 =
      .error .unbound := by
  rfl

/-- C9 (counterexample): `min_cut_edit` on the two-vertex graph `K2`
returns normally (the `|L| = 2` base case of `BUILD_cograph` with the
default label 0 never indexes the NodeView), refuting the claim that every
graph with fewer than three vertices makes it raise. -/
theorem C9_counterexample :
    K2.nodes.length < 3 ∧
      min_cut_edit oneRest oneRest false true true K2 = .ok K2 := by
  exact ⟨by decide, rfl⟩

/-- C9 (amended): `min_cut_edit` raises exactly on single-vertex graphs:
there the `|L| = 1` base case of `BUILD_cograph` evaluates `L[0]` on the
NodeView, yielding either the data dict of a node labelled 0 (which
`add_node` rejects as unhashable) or a KeyError. -/
theorem C9_single_vertex_raises (swO klO : CutFn) (half_cut R1 R2 : Bool)
    (G : Graph) (h : G.nodes.length = 1) :
    ∃ e, min_cut_edit swO klO half_cut R1 R2 G = .error e := by
  obtain ⟨nodes, edges⟩ := G
  simp only at h
  obtain ⟨v, hv⟩ := List.length_eq_one.mp h
  subst hv
  refine ⟨if (0 : ℕ) ∈ [v] then .typeErr else .keyErr, ?_⟩
  simp [min_cut_edit, get_triples, pairsOf, min_cut_split, min_cut_split_go,
    BUILD_cograph, BUILD_go, Bind.bind, Except.bind]

/-- Witness for C9's amended statement: the one-vertex graph `single5`. -/
theorem C9_witness :
    single5.nodes.length = 1 ∧
      ∃ e, min_cut_edit oneRest oneRest false true true single5 = .error e :=
  ⟨rfl, C9_single_vertex_raises oneRest oneRest false true true single5 rfl⟩

/-- C6 (counterexample): with `iterations = 0`, `minimal_min_cut_edit` on
the path `P3` raises `UnboundLocalError`, so there is no returned graph
whose edit count could be compared with `min_cut_edit`'s — the claimed
inequality fails to even apply at `iterations = 0`. -/
theorem C6_counterexample :
    minimal_min_cut_edit oneRest oneRest idShuf false true true P3 0 =
      .error .unbound := by
  rfl

/-- C8: `is_triple(G, (x, y, z), R1, R2)` returns true exactly according
to the spec's rule, for every ordered triple of distinct vertices. -/
theorem C8_is_triple_spec (G : Graph) (x y z : ℕ) (R1 R2 : Bool)
    (hxy : x ≠ y) (hxz : x ≠ z) (hyz : y ≠ z) :
    is_triple G (x, y, z) R1 R2 = true ↔ triple_spec G x y z R1 R2 := by
  simp only [is_triple]
  by_cases h1 : G.hasEdge y z = true <;> by_cases h2 : G.hasEdge x z = true <;>
    by_cases h3 : G.hasEdge x y = true <;>
    cases R1 <;> cases R2 <;>
    simp_all [triple_spec, Graph.adj, hasEdge_comm, List.any_eq_true,
      Bool.and_eq_true, Bool.not_eq_true']

/-- Witness for C8 at a concrete instance: the triple `(0, 2, 1)` of the
path `P3`. -/
theorem C8_witness :
    (0 : ℕ) ≠ 2 ∧ (0 : ℕ) ≠ 1 ∧ (2 : ℕ) ≠ 1 ∧
      (is_triple P3 (0, 2, 1) true true = true ↔ triple_spec P3 0 2 1 true true) :=
  ⟨by decide, by decide, by decide,
    C8_is_triple_spec P3 0 2 1 true true (by decide) (by decide) (by decide)⟩

theorem addNode_edges (G : Graph) (v : ℕ) : (G.addNode v).edges = G.edges := by
  unfold Graph.addNode
  split <;> rfl

theorem addEdge_edges (G : Graph) (x y : ℕ) :
    (G.addEdge x y).edges =
      if G.hasEdge x y = true then G.edges else G.edges ++ [(x, y)] := by
  have h1 : ((G.addNode x).addNode y).edges = G.edges := by
    rw [addNode_edges, addNode_edges]
  have h2 : ((G.addNode x).addNode y).hasEdge x y = G.hasEdge x y := by
    unfold Graph.hasEdge
    rw [h1]
  unfold Graph.addEdge
  rw [apply_ite Graph.edges, h1, h2]

theorem removeEdge_edges (G : Graph) (x y : ℕ) :
    (G.removeEdge x y).edges =
      G.edges.filter fun e => !((e.1 == x && e.2 == y) || (e.1 == y && e.2 == x)) :=
  rfl

theorem hasEdge_of_mem {G : Graph} {e : ℕ × ℕ} (he : e ∈ G.edges) :
    G.hasEdge e.1 e.2 = true := by
  unfold Graph.hasEdge
  rw [List.any_eq_true]
  exact ⟨e, he, by simp⟩

theorem hasEdge_mono {G1 G2 : Graph} (h : ∀ e ∈ G1.edges, e ∈ G2.edges) {x y : ℕ}
    (hxy : G1.hasEdge x y = true) : G2.hasEdge x y = true := by
  unfold Graph.hasEdge at hxy ⊢
  rw [List.any_eq_true] at hxy ⊢
  obtain ⟨e, he, hp⟩ := hxy
  exact ⟨e, h e he, hp⟩

theorem filter_no_orient {H : Graph} {x y : ℕ} (h : H.hasEdge x y = false) :
    (H.edges.filter fun e => !((e.1 == x && e.2 == y) || (e.1 == y && e.2 == x))) =
      H.edges := by
  apply List.filter_eq_self.mpr
  intro a ha
  by_contra hcon
  have hor : ((a.1 == x && a.2 == y) || (a.1 == y && a.2 == x)) = true := by
    revert hcon
    cases hb : ((a.1 == x && a.2 == y) || (a.1 == y && a.2 == x)) <;> simp
  have : H.hasEdge x y = true := by
    unfold Graph.hasEdge
    rw [List.any_eq_true]
    exact ⟨a, ha, hor⟩
  rw [this] at h
  exact absurd h (by decide)

/-- Invariant of the greedy re-adding loop of `minimal_min_cut_edit`: the
working graph's edge list stays a permutation of the candidate's edge list
plus extra edges all present in `G`. -/
theorem trial_edges_inv (G H : Graph) (l : List (ℕ × ℕ)) (Gt : Graph)
    (hl : ∀ e ∈ l, e ∈ G.edges ∧ H.hasEdge e.1 e.2 = false)
    (hInv : ∃ extra, Gt.edges.Perm (H.edges ++ extra) ∧
      ∀ e ∈ extra, G.hasEdge e.1 e.2 = true) :
    ∃ extra,
      (l.foldl (fun Gt e =>
        if (!is_cograph (Gt.addEdge e.1 e.2)) = true then
          (Gt.addEdge e.1 e.2).removeEdge e.1 e.2
        else Gt.addEdge e.1 e.2) Gt).edges.Perm (H.edges ++ extra) ∧
      ∀ e ∈ extra, G.hasEdge e.1 e.2 = true := by
  induction l generalizing Gt with
  | nil => simpa using hInv
  | cons e l ih =>
    obtain ⟨extra, hperm, hextra⟩ := hInv
    obtain ⟨heG, heH⟩ := hl e (List.mem_cons_self _ _)
    rw [List.foldl_cons]
    apply ih _ (fun e' he' => hl e' (List.mem_cons_of_mem _ he'))
    have hadd := addEdge_edges Gt e.1 e.2
    by_cases hc : (!is_cograph (Gt.addEdge e.1 e.2)) = true
    · rw [if_pos hc]
      refine ⟨extra.filter fun a =>
        !((a.1 == e.1 && a.2 == e.2) || (a.1 == e.2 && a.2 == e.1)), ?_, ?_⟩
      · have hstep := hperm.filter fun a =>
          !((a.1 == e.1 && a.2 == e.2) || (a.1 == e.2 && a.2 == e.1))
        rw [List.filter_append, filter_no_orient heH] at hstep
        rw [removeEdge_edges, hadd]
        by_cases h1 : Gt.hasEdge e.1 e.2 = true
        · rw [if_pos h1]
          exact hstep
        · rw [if_neg h1, List.filter_append]
          have he0 : (([(e.1, e.2)] : List (ℕ × ℕ)).filter fun a =>
              !((a.1 == e.1 && a.2 == e.2) || (a.1 == e.2 && a.2 == e.1))) = [] := by
            simp
          rw [he0, List.append_nil]
          exact hstep
      · intro a ha
        exact hextra a (List.mem_of_mem_filter ha)
    · rw [if_neg hc]
      by_cases h1 : Gt.hasEdge e.1 e.2 = true
      · refine ⟨extra, ?_, hextra⟩
        rw [hadd, if_pos h1]
        exact hperm
      · refine ⟨extra ++ [e], ?_, ?_⟩
        · rw [hadd, if_neg h1]
          have : (Gt.edges ++ [(e.1, e.2)]).Perm ((H.edges ++ extra) ++ [(e.1, e.2)]) :=
            hperm.append_right _
          simpa [List.append_assoc] using this
        · intro a ha
          rcases List.mem_append.mp ha with h | h
          · exact hextra a h
          · have : a = e := by simpa using h
            subst this
            exact hasEdge_of_mem heG

/-- From the trial invariant: the trial's edit count never exceeds the
candidate's. -/
theorem n_edits_le_of_perm_extra (G H T : Graph) (extra : List (ℕ × ℕ))
    (hperm : T.edges.Perm (H.edges ++ extra))
    (hextra : ∀ e ∈ extra, G.hasEdge e.1 e.2 = true) :
    n_edits G T ≤ n_edits G H := by
  unfold n_edits
  have hmem : ∀ e ∈ H.edges, e ∈ T.edges := fun e he =>
    hperm.mem_iff.mpr (List.mem_append_left _ he)
  have hdel : (G.edges.countP fun e => !T.hasEdge e.1 e.2) ≤
      G.edges.countP fun e => !H.hasEdge e.1 e.2 := by
    apply List.countP_mono_left
    intro a _ hpa
    by_contra hcon
    have hH : H.hasEdge a.1 a.2 = true := by
      revert hcon
      cases hb : H.hasEdge a.1 a.2 <;> simp
    have hT := hasEdge_mono hmem hH
    rw [hT] at hpa
    exact absurd hpa (by simp)
  have hadd : (T.edges.countP fun e => !G.hasEdge e.1 e.2) =
      H.edges.countP fun e => !G.hasEdge e.1 e.2 := by
    rw [hperm.countP_eq, List.countP_append]
    have hz : (extra.countP fun e => !G.hasEdge e.1 e.2) = 0 := by
      rw [List.countP_eq_zero]
      intro a ha
      simp [hextra a ha]
    rw [hz]
    omega
  omega

/-! Correctness lemmas for the connected-component computation. -/

theorem stepRel_symm (G : Graph) : Symmetric (stepRel G) := by
  intro a b h
  obtain ⟨h1, h2, h3⟩ := h
  refine ⟨?_, h3, h2⟩
  rw [hasEdge_comm]
  exact h1

theorem Reach.symm {G : Graph} {a b : ℕ} (h : Reach G a b) : Reach G b a :=
  Relation.ReflTransGen.symmetric (stepRel_symm G) h

theorem mem_growStep_of_mem (G : Graph) (S : List ℕ) {a : ℕ} (h : a ∈ S) :
    a ∈ growStep G S :=
  List.mem_append_left _ h

theorem mem_growStep (G : Graph) (S : List ℕ) {w : ℕ} (h : w ∈ growStep G S) :
    w ∈ S ∨ (w ∈ G.nodes ∧ w ∉ S ∧ ∃ u ∈ S, G.hasEdge u w = true) := by
  unfold growStep at h
  rcases List.mem_append.mp h with h | h
  · exact Or.inl h
  · right
    have hn := List.mem_of_mem_filter h
    have hp := List.of_mem_filter h
    simp only [Bool.and_eq_true, decide_eq_true_eq, List.any_eq_true] at hp
    exact ⟨hn, hp.1, hp.2⟩

theorem growStep_subset (G : Graph) (S : List ℕ) (hS : ∀ a ∈ S, a ∈ G.nodes) :
    ∀ a ∈ growStep G S, a ∈ G.nodes := by
  intro a ha
  rcases mem_growStep G S ha with h | h
  · exact hS a h
  · exact h.1

theorem growStep_nodup (G : Graph) (S : List ℕ) (hnd : G.nodes.Nodup)
    (hS : S.Nodup) : (growStep G S).Nodup := by
  refine List.Nodup.append hS (hnd.filter _) ?_
  intro a haS haF
  have hp := List.of_mem_filter haF
  simp only [Bool.and_eq_true, decide_eq_true_eq] at hp
  exact hp.1 haS

theorem growN_of_mem (G : Graph) (k : ℕ) (S : List ℕ) {a : ℕ} (h : a ∈ S) :
    a ∈ growN G k S := by
  induction k generalizing S with
  | zero => exact h
  | succ k ih => exact ih _ (mem_growStep_of_mem G S h)

theorem growN_subset (G : Graph) (k : ℕ) (S : List ℕ)
    (hS : ∀ a ∈ S, a ∈ G.nodes) : ∀ a ∈ growN G k S, a ∈ G.nodes := by
  induction k generalizing S with
  | zero => exact hS
  | succ k ih => exact ih _ (growStep_subset G S hS)

theorem growN_nodup (G : Graph) (k : ℕ) (S : List ℕ) (hnd : G.nodes.Nodup)
    (hS : S.Nodup) : (growN G k S).Nodup := by
  induction k generalizing S with
  | zero => exact hS
  | succ k ih => exact ih _ (growStep_nodup G S hnd hS)

theorem growN_sound (G : Graph) (v : ℕ) (k : ℕ) (S : List ℕ)
    (hS : ∀ a ∈ S, a ∈ G.nodes) (hv : ∀ u ∈ S, Reach G v u) :
    ∀ w ∈ growN G k S, Reach G v w := by
  induction k generalizing S with
  | zero => exact hv
  | succ k ih =>
    refine ih _ (growStep_subset G S hS) ?_
    intro w hw
    rcases mem_growStep G S hw with h | h
    · exact hv w h
    · obtain ⟨hwn, _, u, huS, hedge⟩ := h
      exact Relation.ReflTransGen.tail (hv u huS) ⟨hedge, hS u huS, hwn⟩

theorem growN_fix (G : Graph) {S : List ℕ} (hfix : growStep G S = S) (k : ℕ) :
    growN G k S = S := by
  induction k with
  | zero => rfl
  | succ k ih =>
    show growN G k (growStep G S) = S
    rw [hfix]
    exact ih

theorem growStep_length_lt (G : Graph) (S : List ℕ) (h : growStep G S ≠ S) :
    S.length + 1 ≤ (growStep G S).length := by
  unfold growStep at h ⊢
  rcases hf : G.nodes.filter (fun w => decide (w ∉ S) && S.any fun u => G.hasEdge u w) with
    _ | ⟨a, t⟩
  · rw [hf] at h
    simp at h
  · simp only [List.length_append, List.length_cons]
    omega

theorem grow_saturate (G : Graph) (hnd : G.nodes.Nodup) :
    ∀ (k : ℕ) (S : List ℕ), S.Nodup → (∀ a ∈ S, a ∈ G.nodes) →
      G.nodes.length < S.length + k →
      growStep G (growN G k S) = growN G k S := by
  intro k
  induction k with
  | zero =>
    intro S hS hsub hlen
    exfalso
    have := (hS.subperm fun a ha => hsub a ha).length_le
    omega
  | succ k ih =>
    intro S hS hsub hlen
    show growStep G (growN G k (growStep G S)) = growN G k (growStep G S)
    by_cases hfix : growStep G S = S
    · rw [hfix, growN_fix G hfix]
      exact hfix
    · refine ih (growStep G S) (growStep_nodup G S hnd hS) (growStep_subset G S hsub) ?_
      have := growStep_length_lt G S hfix
      omega

theorem mem_compOf_self (G : Graph) (v : ℕ) : v ∈ compOf G v :=
  growN_of_mem G _ [v] (List.mem_singleton_self v)

theorem compOf_subset (G : Graph) {v : ℕ} (hv : v ∈ G.nodes) :
    ∀ a ∈ compOf G v, a ∈ G.nodes :=
  growN_subset G _ [v] (by intro a ha; rw [List.mem_singleton] at ha; subst ha; exact hv)

theorem compOf_nodup (G : Graph) (v : ℕ) (hnd : G.nodes.Nodup) :
    (compOf G v).Nodup :=
  growN_nodup G _ [v] hnd (List.nodup_singleton v)

theorem compOf_sound (G : Graph) {v : ℕ} (hv : v ∈ G.nodes) :
    ∀ w ∈ compOf G v, Reach G v w :=
  growN_sound G v _ [v]
    (by intro a ha; rw [List.mem_singleton] at ha; subst ha; exact hv)
    (by intro u hu; rw [List.mem_singleton] at hu; subst hu; exact Relation.ReflTransGen.refl)

theorem compOf_sat (G : Graph) (hnd : G.nodes.Nodup) {v : ℕ} (hv : v ∈ G.nodes) :
    growStep G (compOf G v) = compOf G v :=
  grow_saturate G hnd G.nodes.length [v] (List.nodup_singleton v)
    (by intro a ha; rw [List.mem_singleton] at ha; subst ha; exact hv)
    (by simp)

theorem compOf_closed (G : Graph) (hnd : G.nodes.Nodup) {v : ℕ} (hv : v ∈ G.nodes)
    {u w : ℕ} (hu : u ∈ compOf G v) (hw : w ∈ G.nodes)
    (he : G.hasEdge u w = true) : w ∈ compOf G v := by
  by_contra hnw
  have hsat := compOf_sat G hnd hv
  unfold growStep at hsat
  have hnil : (G.nodes.filter fun w' =>
      decide (w' ∉ compOf G v) && (compOf G v).any fun u' => G.hasEdge u' w') = [] := by
    have := congrArg List.length hsat
    simp only [List.length_append] at this
    have hlen : (G.nodes.filter fun w' =>
        decide (w' ∉ compOf G v) && (compOf G v).any fun u' => G.hasEdge u' w').length = 0 := by
      omega
    exact List.eq_nil_of_length_eq_zero hlen
  rw [List.filter_eq_nil_iff] at hnil
  refine absurd ?_ (hnil w hw)
  simp only [Bool.and_eq_true, decide_eq_true_eq, List.any_eq_true]
  exact ⟨hnw, u, hu, he⟩

theorem compOf_complete (G : Graph) (hnd : G.nodes.Nodup) {v : ℕ} (hv : v ∈ G.nodes)
    {w : ℕ} (h : Reach G v w) : w ∈ compOf G v := by
  induction h with
  | refl => exact mem_compOf_self G v
  | tail _ hstep ih => exact compOf_closed G hnd hv ih hstep.2.2 hstep.1

/-- Members of the same `compOf` are mutually reachable. -/
theorem reach_of_mem_compOf (G : Graph) {v a b : ℕ} (hv : v ∈ G.nodes)
    (ha : a ∈ compOf G v) (hb : b ∈ compOf G v) : Reach G a b :=
  (compOf_sound G hv a ha).symm.trans (compOf_sound G hv b hb)

/-- The connected-components fold: its components are `compOf` sets of
nodes, they cover all nodes, and they are pairwise member-disjoint. -/
theorem connComps_spec (G : Graph) (hnd : G.nodes.Nodup) :
    (∀ c ∈ connComps G, ∃ v, v ∈ G.nodes ∧ c = compOf G v) ∧
      (∀ v ∈ G.nodes, ∃ c ∈ connComps G, v ∈ c) ∧
      (connComps G).Pairwise (fun c1 c2 => ∀ a, a ∈ c1 → a ∈ c2 → False) := by
  have aux : ∀ (l : List ℕ) (acc : List (List ℕ)),
      (∀ a ∈ l, a ∈ G.nodes) →
      (∀ c ∈ acc, ∃ v, v ∈ G.nodes ∧ c = compOf G v) →
      acc.Pairwise (fun c1 c2 => ∀ a, a ∈ c1 → a ∈ c2 → False) →
      (∀ c ∈ acc, c ∈ l.foldl (fun comps v =>
        if comps.any fun c => decide (v ∈ c) then comps else comps ++ [compOf G v]) acc) ∧
      (∀ c ∈ l.foldl (fun comps v =>
        if comps.any fun c => decide (v ∈ c) then comps else comps ++ [compOf G v]) acc,
        ∃ v, v ∈ G.nodes ∧ c = compOf G v) ∧
      (∀ a ∈ l, ∃ c ∈ l.foldl (fun comps v =>
        if comps.any fun c => decide (v ∈ c) then comps else comps ++ [compOf G v]) acc,
        a ∈ c) ∧
      (l.foldl (fun comps v =>
        if comps.any fun c => decide (v ∈ c) then comps else comps ++ [compOf G v])
        acc).Pairwise (fun c1 c2 => ∀ a, a ∈ c1 → a ∈ c2 → False) := by
    intro l
    induction l with
    | nil =>
      intro acc _ hsrc hpair
      exact ⟨fun c hc => hc, hsrc, fun a ha => absurd ha (List.not_mem_nil a), hpair⟩
    | cons v l ih =>
      intro acc hl hsrc hpair
      have hvG : v ∈ G.nodes := hl v (List.mem_cons_self _ _)
      rw [List.foldl_cons]
      by_cases hguard : (acc.any fun c => decide (v ∈ c)) = true
      · rw [if_pos hguard]
        obtain ⟨hkeep, hsrc', hcov, hpair'⟩ :=
          ih acc (fun a ha => hl a (List.mem_cons_of_mem _ ha)) hsrc hpair
        refine ⟨hkeep, hsrc', ?_, hpair'⟩
        intro a ha
        rcases List.mem_cons.mp ha with rfl | ha'
        · simp only [List.any_eq_true, decide_eq_true_eq] at hguard
          obtain ⟨c, hc, hvc⟩ := hguard
          exact ⟨c, hkeep c hc, hvc⟩
        · exact hcov a ha'
      · rw [if_neg hguard]
        have hguard' : ∀ c ∈ acc, v ∉ c := by
          intro c hc hvc
          apply hguard
          simp only [List.any_eq_true, decide_eq_true_eq]
          exact ⟨c, hc, hvc⟩
        have hnew : ∀ c ∈ acc, ∀ a, a ∈ c → a ∈ compOf G v → False := by
          intro c hc a hac havc
          obtain ⟨u, huG, rfl⟩ := hsrc c hc
          have h1 : Reach G u a := compOf_sound G huG a hac
          have h2 : Reach G v a := compOf_sound G hvG a havc
          have : Reach G u v := h1.trans h2.symm
          exact hguard' _ hc (compOf_complete G hnd huG this)
        have hsrc2 : ∀ c ∈ acc ++ [compOf G v], ∃ u, u ∈ G.nodes ∧ c = compOf G u := by
          intro c hc
          rcases List.mem_append.mp hc with hc | hc
          · exact hsrc c hc
          · rw [List.mem_singleton] at hc
            exact ⟨v, hvG, hc⟩
        have hpair2 : (acc ++ [compOf G v]).Pairwise
            (fun c1 c2 => ∀ a, a ∈ c1 → a ∈ c2 → False) := by
          rw [List.pairwise_append]
          refine ⟨hpair, List.pairwise_singleton _ _, ?_⟩
          intro c1 hc1 c2 hc2
          rw [List.mem_singleton] at hc2
          subst hc2
          exact hnew c1 hc1
        obtain ⟨hkeep, hsrc', hcov, hpair'⟩ :=
          ih (acc ++ [compOf G v]) (fun a ha => hl a (List.mem_cons_of_mem _ ha)) hsrc2 hpair2
        refine ⟨?_, hsrc', ?_, hpair'⟩
        · intro c hc
          exact hkeep c (List.mem_append_left _ hc)
        · intro a ha
          rcases List.mem_cons.mp ha with heq | ha'
          · refine ⟨compOf G v,
              hkeep _ (List.mem_append_right _ (List.mem_singleton_self _)), ?_⟩
            rw [heq]
            exact mem_compOf_self G v
          · exact hcov a ha'
  obtain ⟨_, hsrc, hcov, hpair⟩ :=
    aux G.nodes [] (fun a ha => ha) (by intro c hc; cases hc) List.Pairwise.nil
  exact ⟨hsrc, hcov, hpair⟩

theorem comp_subset_nodes (G : Graph) (hnd : G.nodes.Nodup) {c : List ℕ}
    (hc : c ∈ connComps G) : ∀ a ∈ c, a ∈ G.nodes := by
  obtain ⟨v, hv, rfl⟩ := (connComps_spec G hnd).1 c hc
  exact compOf_subset G hv

theorem comp_nodup (G : Graph) (hnd : G.nodes.Nodup) {c : List ℕ}
    (hc : c ∈ connComps G) : c.Nodup := by
  obtain ⟨v, _, rfl⟩ := (connComps_spec G hnd).1 c hc
  exact compOf_nodup G v hnd

theorem comp_ne_nil (G : Graph) (hnd : G.nodes.Nodup) {c : List ℕ}
    (hc : c ∈ connComps G) : c ≠ [] := by
  obtain ⟨v, _, rfl⟩ := (connComps_spec G hnd).1 c hc
  exact List.ne_nil_of_mem (mem_compOf_self G v)

theorem comp_closed (G : Graph) (hnd : G.nodes.Nodup) {c : List ℕ}
    (hc : c ∈ connComps G) {a b : ℕ} (ha : a ∈ c) (hb : b ∈ G.nodes)
    (he : G.hasEdge a b = true) : b ∈ c := by
  obtain ⟨v, hv, rfl⟩ := (connComps_spec G hnd).1 c hc
  exact compOf_closed G hnd hv ha hb he

theorem comps_eq_of_shared (G : Graph) (hnd : G.nodes.Nodup) {c1 c2 : List ℕ}
    (h1 : c1 ∈ connComps G) (h2 : c2 ∈ connComps G) {a : ℕ}
    (ha1 : a ∈ c1) (ha2 : a ∈ c2) : c1 = c2 := by
  by_contra hne
  have hp := (connComps_spec G hnd).2.2
  have hsym : Symmetric (fun c1 c2 : List ℕ => ∀ a, a ∈ c1 → a ∈ c2 → False) :=
    fun x y h a hax hay => h a hay hax
  exact List.Pairwise.forall hsym hp h1 h2 hne a ha1 ha2

theorem cross_no_edge (G : Graph) (hnd : G.nodes.Nodup) {c1 c2 : List ℕ}
    (h1 : c1 ∈ connComps G) (h2 : c2 ∈ connComps G) (hne : c1 ≠ c2)
    {a b : ℕ} (ha : a ∈ c1) (hb : b ∈ c2) : G.hasEdge a b = false := by
  cases he : G.hasEdge a b with
  | false => rfl
  | true =>
    have hbg : b ∈ G.nodes := comp_subset_nodes G hnd h2 b hb
    have hbc1 : b ∈ c1 := comp_closed G hnd h1 ha hbg he
    exact absurd (comps_eq_of_shared G hnd h1 h2 hbc1 hb) hne

theorem comps_ne_nil (G : Graph) (hnd : G.nodes.Nodup) (h : G.nodes ≠ []) :
    connComps G ≠ [] := by
  obtain ⟨v, hv⟩ := List.exists_mem_of_ne_nil _ h
  obtain ⟨c, hc, _⟩ := (connComps_spec G hnd).2.1 v hv
  exact List.ne_nil_of_mem hc

theorem two_le_length_of_two_mem {α : Type} {l : List α} {a b : α}
    (ha : a ∈ l) (hb : b ∈ l) (hne : a ≠ b) : 2 ≤ l.length := by
  rcases l with _ | ⟨x, _ | ⟨y, t⟩⟩
  · cases ha
  · rw [List.mem_singleton] at ha hb
    exact absurd (ha.trans hb.symm) hne
  · simp only [List.length_cons]
    omega

/-- If the node set splits into two non-empty sides with no edge across,
the component count is at least 2. -/
theorem two_comps_of_split (G : Graph) (hnd : G.nodes.Nodup) (A B : List ℕ)
    (hperm : (A ++ B).Perm G.nodes) (hA : A ≠ []) (hB : B ≠ [])
    (hcross : ∀ a ∈ A, ∀ b ∈ B, G.hasEdge a b = false) :
    2 ≤ (connComps G).length := by
  obtain ⟨a, haA⟩ := List.exists_mem_of_ne_nil _ hA
  obtain ⟨b, hbB⟩ := List.exists_mem_of_ne_nil _ hB
  have haG : a ∈ G.nodes := hperm.mem_iff.mp (List.mem_append_left _ haA)
  have hbG : b ∈ G.nodes := hperm.mem_iff.mp (List.mem_append_right _ hbB)
  obtain ⟨ca, hca, haca⟩ := (connComps_spec G hnd).2.1 a haG
  obtain ⟨cb, hcb, hbcb⟩ := (connComps_spec G hnd).2.1 b hbG
  have hdisjAB : A.Disjoint B := by
    have : (A ++ B).Nodup := hperm.symm.nodup hnd
    exact List.disjoint_of_nodup_append this
  have hclosure : ∀ x, Reach G a x → x ∈ A := by
    intro x hx
    induction hx with
    | refl => exact haA
    | tail _ hstep ih =>
      rename_i b' c' _
      have hcG : c' ∈ G.nodes := hstep.2.2
      rcases List.mem_append.mp (hperm.mem_iff.mpr hcG) with h | h
      · exact h
      · exact absurd hstep.1 (by rw [hcross b' ih c' h]; simp)
  have hne : ca ≠ cb := by
    intro heq
    subst heq
    obtain ⟨v, hv, rfl⟩ := (connComps_spec G hnd).1 ca hca
    have hr : Reach G a b := reach_of_mem_compOf G hv haca hbcb
    exact hdisjAB (hclosure b hr) hbB
  exact two_le_length_of_two_mem hca hcb hne

/-- With at least two components, every component is strictly smaller than
the node set. -/
theorem comp_length_lt (G : Graph) (hnd : G.nodes.Nodup)
    (h2 : 2 ≤ (connComps G).length) {c : List ℕ} (hc : c ∈ connComps G) :
    c.length < G.nodes.length := by
  have hget : ∃ c', c' ∈ connComps G ∧ ∀ a, a ∈ c → a ∈ c' → False := by
    have hp := (connComps_spec G hnd).2.2
    rcases hcomps : connComps G with _ | ⟨x, _ | ⟨y, t⟩⟩
    · rw [hcomps] at h2; simp at h2
    · rw [hcomps] at h2; simp at h2
    · rw [hcomps] at hc hp
      have hxy := List.pairwise_cons.mp hp
      rcases List.mem_cons.mp hc with rfl | hc'
      · exact ⟨y, by simp, hxy.1 y (by simp)⟩
      · refine ⟨x, by simp, ?_⟩
        intro a hac hax
        exact hxy.1 c (by simpa using hc') a hax hac
  obtain ⟨c', hc', hdisj⟩ := hget
  obtain ⟨w, hw⟩ := List.exists_mem_of_ne_nil _ (comp_ne_nil G hnd hc')
  have hwn : w ∉ c := fun hwc => hdisj w hwc hw
  have hsub : ∀ a ∈ c ++ [w], a ∈ G.nodes := by
    intro a ha
    rcases List.mem_append.mp ha with h | h
    · exact comp_subset_nodes G hnd hc a h
    · rw [List.mem_singleton] at h
      subst h
      exact comp_subset_nodes G hnd hc' a hw
  have hnd2 : (c ++ [w]).Nodup := by
    refine List.Nodup.append (comp_nodup G hnd hc) (List.nodup_singleton w) ?_
    intro a hac haw
    rw [List.mem_singleton] at haw
    subst haw
    exact hwn hac
  have := (hnd2.subperm fun a ha => hsub a ha).length_le
  simp only [List.length_append, List.length_singleton] at this
  omega

/-! Lemmas about graph construction. -/

theorem addNode_nodes_of_mem {G : Graph} {v : ℕ} (h : v ∈ G.nodes) :
    G.addNode v = G := by
  unfold Graph.addNode
  rw [if_pos h]

theorem addNodes_nodes_disjoint : ∀ (M : List ℕ) (G : Graph), M.Nodup →
    (∀ v ∈ M, v ∉ G.nodes) → (G.addNodes M).nodes = G.nodes ++ M := by
  intro M
  induction M with
  | nil => intro G _ _; simp [Graph.addNodes]
  | cons v M ih =>
    intro G hnd hdis
    show ((G.addNode v).addNodes M).nodes = G.nodes ++ v :: M
    have hv : v ∉ G.nodes := hdis v (List.mem_cons_self _ _)
    have hGv : (G.addNode v) = ⟨G.nodes ++ [v], G.edges⟩ := by
      unfold Graph.addNode
      rw [if_neg hv]
    rw [hGv]
    rw [ih _ (List.nodup_cons.mp hnd).2 ?_]
    · simp
    · intro w hw hwmem
      rcases List.mem_append.mp hwmem with h | h
      · exact hdis w (List.mem_cons_of_mem _ hw) h
      · rw [List.mem_singleton] at h
        subst h
        exact (List.nodup_cons.mp hnd).1 hw

theorem empty_addNodes_nodes {M : List ℕ} (hnd : M.Nodup) :
    (emptyGraph.addNodes M).nodes = M := by
  have := addNodes_nodes_disjoint M emptyGraph hnd (by intro v _ hv; cases hv)
  simpa [emptyGraph] using this

theorem addNodes_edges (G : Graph) (vs : List ℕ) :
    (G.addNodes vs).edges = G.edges := by
  induction vs generalizing G with
  | nil => rfl
  | cons v vs ih =>
    show ((G.addNode v).addNodes vs).edges = G.edges
    rw [ih, addNode_edges]

theorem addEdge_nodes_of_mem {G : Graph} {x y : ℕ} (hx : x ∈ G.nodes)
    (hy : y ∈ G.nodes) : (G.addEdge x y).nodes = G.nodes := by
  unfold Graph.addEdge
  rw [addNode_nodes_of_mem hx, addNode_nodes_of_mem hy]
  dsimp only
  split <;> rfl

theorem addEdges_nodes_of_mem {G : Graph} {K : List (ℕ × ℕ)}
    (h : ∀ e ∈ K, e.1 ∈ G.nodes ∧ e.2 ∈ G.nodes) :
    (G.addEdges K).nodes = G.nodes := by
  induction K generalizing G with
  | nil => rfl
  | cons e K ih =>
    show ((G.addEdge e.1 e.2).addEdges K).nodes = G.nodes
    have he := h e (List.mem_cons_self _ _)
    have hn : (G.addEdge e.1 e.2).nodes = G.nodes := addEdge_nodes_of_mem he.1 he.2
    rw [ih ?_, hn]
    intro e' he'
    rw [hn]
    exact h e' (List.mem_cons_of_mem _ he')

theorem addEdge_hasEdge_iff (G : Graph) (a b x y : ℕ) :
    (G.addEdge a b).hasEdge x y = true ↔
      G.hasEdge x y = true ∨ ((a, b) = (x, y) ∨ (a, b) = (y, x)) := by
  have hget : (G.addEdge a b).edges =
      if G.hasEdge a b = true then G.edges else G.edges ++ [(a, b)] :=
    addEdge_edges G a b
  constructor
  · intro h
    unfold Graph.hasEdge at h
    rw [hget] at h
    by_cases hab : G.hasEdge a b = true
    · rw [if_pos hab] at h
      exact Or.inl h
    · rw [if_neg hab, List.any_append] at h
      rcases Bool.or_eq_true_iff.mp h with h | h
      · exact Or.inl h
      · right
        simp only [List.any_cons, List.any_nil, Bool.or_false, Bool.or_eq_true,
          Bool.and_eq_true, beq_iff_eq] at h
        rcases h with ⟨h1, h2⟩ | ⟨h1, h2⟩
        · exact Or.inl (by rw [h1, h2])
        · exact Or.inr (by rw [h1, h2])
  · intro h
    rcases h with h | h
    · unfold Graph.hasEdge at h ⊢
      rw [hget]
      split
      · exact h
      · rw [List.any_append, h]
        rfl
    · have hab : G.hasEdge a b = G.hasEdge x y := by
        rcases h with h | h
        · rw [Prod.mk.injEq] at h
          rw [h.1, h.2]
        · rw [Prod.mk.injEq] at h
          rw [h.1, h.2, hasEdge_comm]
      by_cases hxy : G.hasEdge x y = true
      · unfold Graph.hasEdge at hxy ⊢
        rw [hget]
        split
        · exact hxy
        · rw [List.any_append, hxy]
          rfl
      · unfold Graph.hasEdge
        rw [hget, hab, if_neg hxy, List.any_append]
        have : ((a, b) :: ([] : List (ℕ × ℕ))).any
            (fun e => (e.1 == x && e.2 == y) || (e.1 == y && e.2 == x)) = true := by
          simp only [List.any_cons, List.any_nil, Bool.or_false, Bool.or_eq_true,
            Bool.and_eq_true, beq_iff_eq]
          rcases h with h | h
          · rw [Prod.mk.injEq] at h
            exact Or.inl ⟨h.1, h.2⟩
          · rw [Prod.mk.injEq] at h
            exact Or.inr ⟨h.1, h.2⟩
        rw [this, Bool.or_true]

theorem addEdges_hasEdge_iff (G : Graph) (K : List (ℕ × ℕ)) (x y : ℕ) :
    (G.addEdges K).hasEdge x y = true ↔
      G.hasEdge x y = true ∨ ∃ e ∈ K, e = (x, y) ∨ e = (y, x) := by
  induction K generalizing G with
  | nil => simp [Graph.addEdges]
  | cons e K ih =>
    show ((G.addEdge e.1 e.2).addEdges K).hasEdge x y = true ↔ _
    rw [ih]
    rw [addEdge_hasEdge_iff]
    constructor
    · rintro ((h | h) | ⟨e', he', h⟩)
      · exact Or.inl h
      · exact Or.inr ⟨e, List.mem_cons_self _ _, by simpa using h⟩
      · exact Or.inr ⟨e', List.mem_cons_of_mem _ he', h⟩
    · rintro (h | ⟨e', he', h⟩)
      · exact Or.inl (Or.inl h)
      · rcases List.mem_cons.mp he' with rfl | he''
        · exact Or.inl (Or.inr (by simpa using h))
        · exact Or.inr ⟨e', he'', h⟩

theorem wg_fold_g (K : List (ℕ × ℕ)) (A : WGraph) :
    (K.foldl (fun A e =>
      ⟨A.g.addEdge e.1 e.2, A.w ++ [(e, ([e.1, e.2] : List ℕ).length)]⟩) A).g =
      A.g.addEdges K := by
  induction K generalizing A with
  | nil => rfl
  | cons e K ih =>
    rw [List.foldl_cons]
    rw [ih]
    rfl

theorem comp_graph_g (R : Triples) (M : List ℕ) :
    (comp_graph R M).g = (emptyGraph.addNodes M).addEdges
      ((R.filter fun ent =>
        !ent.2.isEmpty && decide (ent.1.1 ∈ M) && decide (ent.1.2 ∈ M)).map (·.1)) := by
  unfold comp_graph
  exact wg_fold_g _ _

theorem comp_graph_K_mem (R : Triples) (M : List ℕ) (k : ℕ × ℕ) :
    k ∈ (R.filter fun ent =>
        !ent.2.isEmpty && decide (ent.1.1 ∈ M) && decide (ent.1.2 ∈ M)).map (·.1) ↔
      ∃ ent ∈ R, ent.1 = k ∧ ent.2 ≠ [] ∧ k.1 ∈ M ∧ k.2 ∈ M := by
  rw [List.mem_map]
  constructor
  · rintro ⟨ent, hent, rfl⟩
    have hm := List.mem_of_mem_filter hent
    have hp := List.of_mem_filter hent
    simp only [Bool.and_eq_true, decide_eq_true_eq] at hp
    have hne : ent.2 ≠ [] := by
      have h0 := hp.1.1
      simp at h0
      exact h0
    exact ⟨ent, hm, rfl, hne, hp.1.2, hp.2⟩
  · rintro ⟨ent, hent, rfl, hne, h1, h2⟩
    refine ⟨ent, List.mem_filter.mpr ⟨hent, ?_⟩, rfl⟩
    simp only [Bool.and_eq_true, decide_eq_true_eq]
    refine ⟨⟨?_, h1⟩, h2⟩
    simp [hne]

theorem comp_graph_nodes (R : Triples) {M : List ℕ} (hnd : M.Nodup) :
    (comp_graph R M).g.nodes = M := by
  rw [comp_graph_g]
  rw [addEdges_nodes_of_mem, empty_addNodes_nodes hnd]
  intro e he
  rw [empty_addNodes_nodes hnd]
  rw [comp_graph_K_mem] at he
  obtain ⟨_, _, _, _, h1, h2⟩ := he
  exact ⟨h1, h2⟩

/-! Lemmas about triple dictionaries. -/

theorem TWF_of_keys_sublist {R1 R2 : Triples}
    (h : (R2.map (·.1)).Sublist (R1.map (·.1))) (hw : TWF R1) : TWF R2 := by
  obtain ⟨hnd, hne, hsw⟩ := hw
  refine ⟨hnd.sublist h, ?_, ?_⟩
  · intro k hk
    exact hne k (h.mem hk)
  · intro k1 hk1 k2 hk2
    exact hsw k1 (h.mem hk1) k2 (h.mem hk2)

theorem keyLookup_some {R : Triples} {a b : ℕ} {l : List ℕ}
    (h : keyLookup R a b = some l) : ∃ ent ∈ R, ent.1 = (a, b) ∧ ent.2 = l := by
  unfold keyLookup at h
  rcases hf : R.find? fun ent => ent.1 == (a, b) with _ | ent
  · rw [hf] at h
    cases h
  · rw [hf] at h
    refine ⟨ent, List.mem_of_find?_eq_some hf, ?_, ?_⟩
    · have := List.find?_some hf
      exact eq_of_beq this
    · have : some ent.2 = some l := by simpa using h
      exact Option.some.inj this

theorem keyLookup_none {R : Triples} {a b : ℕ} (h : keyLookup R a b = none) :
    ∀ ent ∈ R, ent.1 ≠ (a, b) := by
  unfold keyLookup at h
  rw [Option.map_eq_none'] at h
  rw [List.find?_eq_none] at h
  intro ent hent heq
  exact absurd (by simpa using heq) (h ent hent)

theorem keyLookup_isSome_of_mem {R : Triples} {ent : (ℕ × ℕ) × List ℕ}
    (hent : ent ∈ R) {a b : ℕ} (hk : ent.1 = (a, b)) :
    keyLookup R a b ≠ none := by
  intro hn
  exact keyLookup_none hn ent hent hk

theorem witL_eq {R : Triples} {x y : ℕ} {l : List ℕ}
    (h : keyLookup R x y = some l) : witL R x y = l := by
  unfold witL
  rw [h]

theorem witL_eq_swap {R : Triples} {x y : ℕ} {l : List ℕ}
    (h1 : keyLookup R x y = none) (h2 : keyLookup R y x = some l) :
    witL R x y = l := by
  unfold witL
  rw [h1, h2]
  rfl

theorem witL_nil {R : Triples} {x y : ℕ}
    (h1 : keyLookup R x y = none) (h2 : keyLookup R y x = none) :
    witL R x y = [] := by
  unfold witL
  rw [h1, h2]
  rfl

theorem key_unique {R : Triples} (hnd : (R.map (·.1)).Nodup)
    {e1 e2 : (ℕ × ℕ) × List ℕ} (h1 : e1 ∈ R) (h2 : e2 ∈ R)
    (hk : e1.1 = e2.1) : e1 = e2 :=
  List.inj_on_of_nodup_map hnd h1 h2 hk

theorem mem_witL_iff {R : Triples} (hw : TWF R) {x y z : ℕ} :
    z ∈ witL R x y ↔
      ∃ ent ∈ R, (ent.1 = (x, y) ∨ ent.1 = (y, x)) ∧ z ∈ ent.2 := by
  rcases h1 : keyLookup R x y with _ | l
  · rcases h2 : keyLookup R y x with _ | l
    · rw [witL_nil h1 h2]
      simp only [List.not_mem_nil, false_iff]
      rintro ⟨ent, hent, hkey | hkey, _⟩
      · exact keyLookup_none h1 ent hent hkey
      · exact keyLookup_none h2 ent hent hkey
    · rw [witL_eq_swap h1 h2]
      obtain ⟨ent0, hent0, hk0, hl0⟩ := keyLookup_some h2
      constructor
      · intro hz
        exact ⟨ent0, hent0, Or.inr hk0, by rw [hl0]; exact hz⟩
      · rintro ⟨ent, hent, hkey | hkey, hz⟩
        · exact absurd hkey (keyLookup_none h1 ent hent)
        · have := key_unique hw.1 hent hent0 (by rw [hkey, hk0])
          subst this
          rw [← hl0]
          exact hz
  · rw [witL_eq h1]
    obtain ⟨ent0, hent0, hk0, hl0⟩ := keyLookup_some h1
    constructor
    · intro hz
      exact ⟨ent0, hent0, Or.inl hk0, by rw [hl0]; exact hz⟩
    · rintro ⟨ent, hent, hkey | hkey, hz⟩
      · have := key_unique hw.1 hent hent0 (by rw [hkey, hk0])
        subst this
        rw [← hl0]
        exact hz
      · exfalso
        have hm1 : ent0.1 ∈ R.map (·.1) := List.mem_map_of_mem _ hent0
        have hm2 : ent.1 ∈ R.map (·.1) := List.mem_map_of_mem _ hent
        refine hw.2.2 ent0.1 hm1 ent.1 hm2 ?_ ?_
        · rw [hk0, hkey]
        · rw [hk0, hkey]

theorem witL_ne_nil_iff {R : Triples} (hw : TWF R) {x y : ℕ} :
    witL R x y ≠ [] ↔
      ∃ ent ∈ R, (ent.1 = (x, y) ∨ ent.1 = (y, x)) ∧ ent.2 ≠ [] := by
  constructor
  · intro h
    obtain ⟨z, hz⟩ := List.exists_mem_of_ne_nil _ h
    obtain ⟨ent, hent, hk, hzent⟩ := (mem_witL_iff hw).mp hz
    exact ⟨ent, hent, hk, List.ne_nil_of_mem hzent⟩
  · rintro ⟨ent, hent, hk, hne⟩
    obtain ⟨z, hz⟩ := List.exists_mem_of_ne_nil _ hne
    exact List.ne_nil_of_mem ((mem_witL_iff hw).mpr ⟨ent, hent, hk, hz⟩)

theorem comp_graph_hasEdge_iff {R : Triples} (hw : TWF R) {M : List ℕ}
    (hnd : M.Nodup) (x y : ℕ) :
    (comp_graph R M).g.hasEdge x y = true ↔
      x ∈ M ∧ y ∈ M ∧ witL R x y ≠ [] := by
  rw [comp_graph_g]
  rw [addEdges_hasEdge_iff]
  have hbase : (emptyGraph.addNodes M).hasEdge x y = false := by
    unfold Graph.hasEdge
    rw [addNodes_edges]
    rfl
  rw [hbase]
  simp only [Bool.false_eq_true, false_or]
  constructor
  · rintro ⟨e, he, hor⟩
    rw [comp_graph_K_mem] at he
    obtain ⟨ent, hent, hk, hne, h1, h2⟩ := he
    rcases hor with rfl | rfl
    · exact ⟨h1, h2, (witL_ne_nil_iff hw).mpr ⟨ent, hent, Or.inl hk, hne⟩⟩
    · exact ⟨h2, h1, (witL_ne_nil_iff hw).mpr ⟨ent, hent, Or.inr hk, hne⟩⟩
  · rintro ⟨hx, hy, hne⟩
    obtain ⟨ent, hent, hk, hentne⟩ := (witL_ne_nil_iff hw).mp hne
    rcases hk with hk | hk
    · exact ⟨(x, y), (comp_graph_K_mem R M _).mpr ⟨ent, hent, hk, hentne, hx, hy⟩,
        Or.inl rfl⟩
    · exact ⟨(y, x), (comp_graph_K_mem R M _).mpr ⟨ent, hent, hk, hentne, hy, hx⟩,
        Or.inr rfl⟩

theorem keyLookup_nil (a b : ℕ) : keyLookup [] a b = none := rfl

theorem keyLookup_cons (ent : (ℕ × ℕ) × List ℕ) (R : Triples) (a b : ℕ) :
    keyLookup (ent :: R) a b =
      if ent.1 = (a, b) then some ent.2 else keyLookup R a b := by
  unfold keyLookup
  by_cases h : ent.1 = (a, b)
  · rw [List.find?_cons_of_pos _ (by simpa using h), if_pos h]
    rfl
  · rw [List.find?_cons_of_neg _ (by simpa using h), if_neg h]

theorem keyLookup_filterKey (R : Triples) (k : ℕ × ℕ) (a b : ℕ) :
    keyLookup (R.filter fun ent => ent.1 != k) a b =
      if k = (a, b) then none else keyLookup R a b := by
  induction R with
  | nil =>
    rw [List.filter_nil, keyLookup_nil]
    split <;> rfl
  | cons ent R ih =>
    rw [List.filter_cons]
    by_cases hek : ent.1 = k
    · have hp : (ent.1 != k) = false := by simp [hek]
      rw [hp]
      simp only [Bool.false_eq_true, if_false]
      rw [ih, keyLookup_cons]
      by_cases hk : k = (a, b)
      · rw [if_pos hk, if_pos hk]
      · rw [if_neg hk, if_neg hk, if_neg (by rw [hek]; exact hk)]
    · have hp : (ent.1 != k) = true := by simp [hek]
      rw [hp]
      simp only [if_true]
      rw [keyLookup_cons, keyLookup_cons]
      by_cases hab : ent.1 = (a, b)
      · rw [if_pos hab]
        by_cases hk : k = (a, b)
        · exact absurd (hab.trans hk.symm) hek
        · rw [if_neg hk, if_pos hab]
      · rw [if_neg hab, ih]
        by_cases hk : k = (a, b)
        · rw [if_pos hk, if_pos hk]
        · rw [if_neg hk, if_neg hk, if_neg hab]

theorem keyLookup_mapKey (R : Triples) (k : ℕ × ℕ) (l2 : List ℕ) (a b : ℕ) :
    keyLookup (R.map fun ent => if ent.1 == k then (k, l2) else ent) a b =
      if k = (a, b) then (keyLookup R a b).map fun _ => l2
      else keyLookup R a b := by
  induction R with
  | nil =>
    rw [List.map_nil, keyLookup_nil]
    split <;> rfl
  | cons ent R ih =>
    rw [List.map_cons]
    by_cases hek : ent.1 = k
    · have hek' : (ent.1 == k) = true := beq_iff_eq.mpr hek
      rw [if_pos hek', keyLookup_cons, keyLookup_cons]
      by_cases hk : k = (a, b)
      · rw [if_pos hk, if_pos hk, if_pos (hek.trans hk)]
        rfl
      · rw [if_neg hk, if_neg hk, if_neg (by rw [hek]; exact hk), ih, if_neg hk]
    · have hek' : ¬(ent.1 == k) = true := by simpa using hek
      rw [if_neg hek', keyLookup_cons, keyLookup_cons]
      by_cases hab : ent.1 = (a, b)
      · rw [if_pos hab, if_pos hab]
        by_cases hk : k = (a, b)
        · exact absurd (hab.trans hk.symm) hek
        · rw [if_neg hk]
      · rw [if_neg hab, if_neg hab, ih]

theorem keys_map_upd (R : Triples) (k : ℕ × ℕ) (l2 : List ℕ) :
    (R.map fun ent => if ent.1 == k then (k, l2) else ent).map (·.1) =
      R.map (·.1) := by
  rw [List.map_map]
  apply List.map_congr_left
  intro ent _
  simp only [Function.comp_apply]
  split
  · rename_i h
    exact (eq_of_beq h).symm
  · rfl

theorem pruneKey_eq_some {R : Triples} {e : ℕ × ℕ} {l : List ℕ} (M : List ℕ)
    (h1 : keyLookup R e.1 e.2 = some l) :
    pruneKey R e M =
      if (l.filter fun z => decide (z ∉ M)).isEmpty = true then
        R.filter fun ent => ent.1 != (e.1, e.2)
      else R.map fun ent =>
        if ent.1 == (e.1, e.2) then ((e.1, e.2), l.filter fun z => decide (z ∉ M))
        else ent := by
  unfold pruneKey
  rw [h1]

theorem pruneKey_eq_swap {R : Triples} {e : ℕ × ℕ} {l : List ℕ} (M : List ℕ)
    (h1 : keyLookup R e.1 e.2 = none) (h2 : keyLookup R e.2 e.1 = some l) :
    pruneKey R e M =
      if (l.filter fun z => decide (z ∉ M)).isEmpty = true then
        R.filter fun ent => ent.1 != (e.2, e.1)
      else R.map fun ent =>
        if ent.1 == (e.2, e.1) then ((e.2, e.1), l.filter fun z => decide (z ∉ M))
        else ent := by
  unfold pruneKey
  rw [h1, h2]

theorem pruneKey_eq_none {R : Triples} {e : ℕ × ℕ} (M : List ℕ)
    (h1 : keyLookup R e.1 e.2 = none) (h2 : keyLookup R e.2 e.1 = none) :
    pruneKey R e M = R := by
  unfold pruneKey
  rw [h1, h2]

theorem pruneKey_keys_sublist (R : Triples) (e : ℕ × ℕ) (M : List ℕ) :
    ((pruneKey R e M).map (·.1)).Sublist (R.map (·.1)) := by
  rcases h1 : keyLookup R e.1 e.2 with _ | l
  · rcases h2 : keyLookup R e.2 e.1 with _ | l
    · rw [pruneKey_eq_none M h1 h2]
    · rw [pruneKey_eq_swap M h1 h2]
      split
      · exact (List.filter_sublist R).map _
      · rw [keys_map_upd]
  · rw [pruneKey_eq_some M h1]
    split
    · exact (List.filter_sublist R).map _
    · rw [keys_map_upd]

theorem twf_pruneKey {R : Triples} (hw : TWF R) (e : ℕ × ℕ) (M : List ℕ) :
    TWF (pruneKey R e M) :=
  TWF_of_keys_sublist (pruneKey_keys_sublist R e M) hw

theorem mem_map_upd {R : Triples} (hw : TWF R) {k : ℕ × ℕ} {l : List ℕ}
    (hlook : keyLookup R k.1 k.2 = some l) {l2 : List ℕ} (hl2 : ∀ z ∈ l2, z ∈ l)
    {ent' : (ℕ × ℕ) × List ℕ}
    (hent' : ent' ∈ R.map fun ent => if ent.1 == k then (k, l2) else ent) :
    ∃ ent ∈ R, ent.1 = ent'.1 ∧ ∀ z ∈ ent'.2, z ∈ ent.2 := by
  obtain ⟨ent, hent, hupd⟩ := List.mem_map.mp hent'
  by_cases hk : (ent.1 == k) = true
  · rw [if_pos hk] at hupd
    obtain ⟨ent0, hent0, hk0, hl0⟩ := keyLookup_some hlook
    have hk0' : ent0.1 = k := by
      rw [hk0]
    have hentEq : ent = ent0 := key_unique hw.1 hent hent0 ((eq_of_beq hk).trans hk0'.symm)
    refine ⟨ent, hent, ?_, ?_⟩
    · rw [← hupd]
      exact eq_of_beq hk
    · intro z hz
      rw [← hupd] at hz
      have hzl : z ∈ l := hl2 z hz
      rw [hentEq, hl0]
      exact hzl
  · rw [if_neg hk] at hupd
    subst hupd
    exact ⟨ent, hent, rfl, fun z hz => hz⟩

theorem pruneKey_shrink {R : Triples} (hw : TWF R) (e : ℕ × ℕ) (M : List ℕ) :
    Shrink (pruneKey R e M) R := by
  intro x y z hz
  have hw2 := twf_pruneKey hw e M
  obtain ⟨ent', hent', hkey, hz'⟩ := (mem_witL_iff hw2).mp hz
  rw [mem_witL_iff hw]
  rcases h1 : keyLookup R e.1 e.2 with _ | l
  · rcases h2 : keyLookup R e.2 e.1 with _ | l
    · rw [pruneKey_eq_none M h1 h2] at hent'
      exact ⟨ent', hent', hkey, hz'⟩
    · rw [pruneKey_eq_swap M h1 h2] at hent'
      revert hent'
      split
      · intro hent'
        exact ⟨ent', List.mem_of_mem_filter hent', hkey, hz'⟩
      · intro hent'
        obtain ⟨ent, hent, hkent, hsub⟩ := mem_map_upd hw (k := (e.2, e.1)) h2
          (fun z hz0 => List.mem_of_mem_filter hz0) hent'
        exact ⟨ent, hent, by rw [hkent]; exact hkey, hsub z hz'⟩
  · rw [pruneKey_eq_some M h1] at hent'
    revert hent'
    split
    · intro hent'
      exact ⟨ent', List.mem_of_mem_filter hent', hkey, hz'⟩
    · intro hent'
      obtain ⟨ent, hent, hkent, hsub⟩ := mem_map_upd hw (k := (e.1, e.2)) h1
        (fun z hz0 => List.mem_of_mem_filter hz0) hent'
      exact ⟨ent, hent, by rw [hkent]; exact hkey, hsub z hz'⟩

theorem pruneKey_self {R : Triples} (hw : TWF R) (e : ℕ × ℕ) (M : List ℕ) :
    ∀ z ∈ witL (pruneKey R e M) e.1 e.2, z ∉ M := by
  intro z hz
  rcases h1 : keyLookup R e.1 e.2 with _ | l
  · rcases h2 : keyLookup R e.2 e.1 with _ | l
    · rw [pruneKey_eq_none M h1 h2, witL_nil h1 h2] at hz
      cases hz
    · rw [pruneKey_eq_swap M h1 h2] at hz
      revert hz
      split
      · intro hz
        have ha : keyLookup (R.filter fun ent => ent.1 != (e.2, e.1)) e.1 e.2 = none := by
          rw [keyLookup_filterKey]
          by_cases he : (e.2, e.1) = (e.1, e.2)
          · rw [if_pos he]
          · rw [if_neg he]
            exact h1
        have hb : keyLookup (R.filter fun ent => ent.1 != (e.2, e.1)) e.2 e.1 = none := by
          rw [keyLookup_filterKey, if_pos rfl]
        rw [witL_nil ha hb] at hz
        cases hz
      · intro hz
        have ha : keyLookup (R.map fun ent =>
            if ent.1 == (e.2, e.1) then ((e.2, e.1), l.filter fun z => decide (z ∉ M))
            else ent) e.1 e.2 = none := by
          rw [keyLookup_mapKey]
          by_cases he : (e.2, e.1) = (e.1, e.2)
          · rw [if_pos he, h1]
            rfl
          · rw [if_neg he]
            exact h1
        have hb : keyLookup (R.map fun ent =>
            if ent.1 == (e.2, e.1) then ((e.2, e.1), l.filter fun z => decide (z ∉ M))
            else ent) e.2 e.1 = some (l.filter fun z => decide (z ∉ M)) := by
          rw [keyLookup_mapKey, if_pos rfl, h2]
          rfl
        rw [witL_eq_swap ha hb] at hz
        have := List.of_mem_filter hz
        simpa using this
  · rw [pruneKey_eq_some M h1] at hz
    revert hz
    split
    · intro hz
      have ha : keyLookup (R.filter fun ent => ent.1 != (e.1, e.2)) e.1 e.2 = none := by
        rw [keyLookup_filterKey, if_pos rfl]
      have hb : keyLookup (R.filter fun ent => ent.1 != (e.1, e.2)) e.2 e.1 = none := by
        rw [keyLookup_filterKey]
        by_cases he : (e.1, e.2) = (e.2, e.1)
        · rw [if_pos he]
        · rw [if_neg he]
          rcases h2 : keyLookup R e.2 e.1 with _ | l'
          · rfl
          · exfalso
            obtain ⟨ent1, hent1, hk1, _⟩ := keyLookup_some h1
            obtain ⟨ent2, hent2, hk2, _⟩ := keyLookup_some h2
            refine hw.2.2 ent1.1 (List.mem_map_of_mem _ hent1) ent2.1
              (List.mem_map_of_mem _ hent2) ?_ ?_
            · rw [hk1, hk2]
            · rw [hk1, hk2]
      rw [witL_nil ha hb] at hz
      cases hz
    · intro hz
      have ha : keyLookup (R.map fun ent =>
          if ent.1 == (e.1, e.2) then ((e.1, e.2), l.filter fun z => decide (z ∉ M))
          else ent) e.1 e.2 = some (l.filter fun z => decide (z ∉ M)) := by
        rw [keyLookup_mapKey, if_pos rfl, h1]
        rfl
      rw [witL_eq ha] at hz
      have := List.of_mem_filter hz
      simpa using this

theorem triple_subset_cons (ent : (ℕ × ℕ) × List ℕ) (R : Triples) (C : List ℕ) :
    triple_subset (ent :: R) C =
      if ent.1.1 ∈ C ∧ ent.1.2 ∈ C then
        (ent.1, ent.2.filter fun z => decide (z ∈ C)) :: triple_subset R C
      else triple_subset R C := by
  unfold triple_subset
  rw [List.filter_cons]
  by_cases h : ent.1.1 ∈ C ∧ ent.1.2 ∈ C
  · rw [if_pos (by simp [h.1, h.2]), if_pos h, List.map_cons]
  · have : ¬((decide (ent.1.1 ∈ C) && decide (ent.1.2 ∈ C)) = true) := by
      simpa using h
    rw [if_neg this, if_neg h]

theorem keyLookup_triple_subset {C : List ℕ} {a b : ℕ} (ha : a ∈ C) (hb : b ∈ C)
    (R : Triples) :
    keyLookup (triple_subset R C) a b =
      (keyLookup R a b).map fun l => l.filter fun z => decide (z ∈ C) := by
  induction R with
  | nil => rfl
  | cons ent R ih =>
    rw [triple_subset_cons, keyLookup_cons]
    by_cases hk : ent.1 = (a, b)
    · have hc : ent.1.1 ∈ C ∧ ent.1.2 ∈ C := by
        rw [hk]
        exact ⟨ha, hb⟩
      rw [if_pos hc, keyLookup_cons]
      simp only [if_pos hk]
      rfl
    · rw [if_neg hk]
      by_cases hc : ent.1.1 ∈ C ∧ ent.1.2 ∈ C
      · rw [if_pos hc, keyLookup_cons, if_neg hk]
        exact ih
      · rw [if_neg hc]
        exact ih

theorem witL_triple_subset {C : List ℕ} {x y : ℕ} (hx : x ∈ C) (hy : y ∈ C)
    (R : Triples) :
    witL (triple_subset R C) x y = (witL R x y).filter fun z => decide (z ∈ C) := by
  rcases h1 : keyLookup R x y with _ | l
  · rcases h2 : keyLookup R y x with _ | l
    · have ha : keyLookup (triple_subset R C) x y = none := by
        rw [keyLookup_triple_subset hx hy, h1]
        rfl
      have hb : keyLookup (triple_subset R C) y x = none := by
        rw [keyLookup_triple_subset hy hx, h2]
        rfl
      rw [witL_nil ha hb, witL_nil h1 h2]
      rfl
    · have ha : keyLookup (triple_subset R C) x y = none := by
        rw [keyLookup_triple_subset hx hy, h1]
        rfl
      have hb : keyLookup (triple_subset R C) y x =
          some (l.filter fun z => decide (z ∈ C)) := by
        rw [keyLookup_triple_subset hy hx, h2]
        rfl
      rw [witL_eq_swap ha hb, witL_eq_swap h1 h2]
  · have ha : keyLookup (triple_subset R C) x y =
        some (l.filter fun z => decide (z ∈ C)) := by
      rw [keyLookup_triple_subset hx hy, h1]
      rfl
    rw [witL_eq ha, witL_eq h1]

theorem triple_subset_keys_sublist (R : Triples) (C : List ℕ) :
    ((triple_subset R C).map (·.1)).Sublist (R.map (·.1)) := by
  unfold triple_subset
  rw [List.map_map]
  have : (List.filter (fun ent => decide (ent.1.1 ∈ C) && decide (ent.1.2 ∈ C)) R).map
      ((·.1) ∘ fun ent : (ℕ × ℕ) × List ℕ =>
        (ent.1, ent.2.filter fun z => decide (z ∈ C))) =
      (List.filter (fun ent => decide (ent.1.1 ∈ C) && decide (ent.1.2 ∈ C)) R).map (·.1) := by
    apply List.map_congr_left
    intro ent _
    rfl
  rw [this]
  exact (List.filter_sublist R).map _

theorem twf_triple_subset {R : Triples} (hw : TWF R) (C : List ℕ) :
    TWF (triple_subset R C) :=
  TWF_of_keys_sublist (triple_subset_keys_sublist R C) hw

theorem shrink_refl (R : Triples) : Shrink R R := fun _ _ _ h => h

theorem shrink_trans {R1 R2 R3 : Triples} (h1 : Shrink R1 R2) (h2 : Shrink R2 R3) :
    Shrink R1 R3 := fun x y z h => h2 x y z (h1 x y z h)

theorem rgdisconn_of_shrink {R1 R2 : Triples} {C : List ℕ} (hs : Shrink R2 R1)
    (h : RGdisconn R1 C) : RGdisconn R2 C := by
  obtain ⟨A, B, hA, hB, hperm, hcross⟩ := h
  exact ⟨A, B, hA, hB, hperm, fun a ha b hb z hz => hcross a ha b hb z (hs a b z hz)⟩

theorem witL_symm {R : Triples} (hw : TWF R) (x y : ℕ) :
    witL R x y = witL R y x := by
  rcases h1 : keyLookup R x y with _ | l
  · rcases h2 : keyLookup R y x with _ | l
    · rw [witL_nil h1 h2, witL_nil h2 h1]
    · rw [witL_eq_swap h1 h2, witL_eq h2]
  · have h2 : keyLookup R y x = none := by
      rcases h2 : keyLookup R y x with _ | l'
      · rfl
      · exfalso
        obtain ⟨ent1, hent1, hk1, _⟩ := keyLookup_some h1
        obtain ⟨ent2, hent2, hk2, _⟩ := keyLookup_some h2
        refine hw.2.2 ent1.1 (List.mem_map_of_mem _ hent1) ent2.1
          (List.mem_map_of_mem _ hent2) ?_ ?_
        · rw [hk1, hk2]
        · rw [hk1, hk2]
    rw [witL_eq h1, witL_eq_swap h2 h1]

theorem hasEdge_or_mem {G : Graph} {x y : ℕ} (h : G.hasEdge x y = true) :
    (x, y) ∈ G.edges ∨ (y, x) ∈ G.edges := by
  unfold Graph.hasEdge at h
  rw [List.any_eq_true] at h
  obtain ⟨e, he, hp⟩ := h
  simp only [Bool.or_eq_true, Bool.and_eq_true, beq_iff_eq] at hp
  rcases hp with ⟨h1, h2⟩ | ⟨h1, h2⟩
  · left
    have : e = (x, y) := by
      rw [Prod.ext_iff]
      exact ⟨h1, h2⟩
    rw [← this]
    exact he
  · right
    have : e = (y, x) := by
      rw [Prod.ext_iff]
      exact ⟨h1, h2⟩
    rw [← this]
    exact he

theorem min_cut_split_go_succ (swO klO : CutFn) (hc : Bool) (fuel : ℕ)
    (R : Triples) (L : List ℕ) :
    min_cut_split_go swO klO hc (fuel + 1) R L =
      if L.length < 3 then R
      else if (connComps (comp_graph R L).g).length > 1 then
        (connComps (comp_graph R L).g).foldl
          (fun R comp => min_cut_split_go swO klO hc fuel R comp) R
      else ms_cut_step swO klO hc fuel R L := rfl

theorem ms_prune_fold_spec (N : List ℕ) :
    ∀ (es : List (ℕ × ℕ)) (R0 : Triples), TWF R0 →
      TWF (ms_prune_fold R0 es N) ∧ Shrink (ms_prune_fold R0 es N) R0 ∧
      ∀ e ∈ es, ∀ z ∈ witL (ms_prune_fold R0 es N) e.1 e.2, z ∉ N := by
  intro es
  induction es with
  | nil =>
    intro R0 hw0
    exact ⟨hw0, shrink_refl R0, fun e he => absurd he (List.not_mem_nil e)⟩
  | cons e es ihes =>
    intro R0 hw0
    have heq : ms_prune_fold R0 (e :: es) N = ms_prune_fold (pruneKey R0 e N) es N := rfl
    rw [heq]
    have hw1 := twf_pruneKey hw0 e N
    obtain ⟨hwF, hshF, hselfF⟩ := ihes (pruneKey R0 e N) hw1
    refine ⟨hwF, shrink_trans hshF (pruneKey_shrink hw0 e N), ?_⟩
    intro e' he' z hz
    rcases List.mem_cons.mp he' with heq' | he''
    · subst heq'
      exact pruneKey_self hw0 e' N z (hshF e'.1 e'.2 z hz)
    · exact hselfF e' he'' z hz

theorem ms_cut_step_spec (swO klO : CutFn) (hswv : OracleValid swO)
    (hklv : OracleValid klO) (hc : Bool) (fuel : ℕ)
    (ih : ∀ (R : Triples) (M : List ℕ), M.Nodup → TWF R → M.length < fuel →
      TWF (min_cut_split_go swO klO hc fuel R M) ∧
      Shrink (min_cut_split_go swO klO hc fuel R M) R ∧
      ∀ C, C ⊆ M → C.Nodup → 3 ≤ C.length →
        RGdisconn (min_cut_split_go swO klO hc fuel R M) C)
    (R : Triples) (M : List ℕ) (hM : M.Nodup) (hw : TWF R)
    (hlen : M.length < fuel + 1) (hM3 : 3 ≤ M.length) :
    TWF (ms_cut_step swO klO hc fuel R M) ∧
    Shrink (ms_cut_step swO klO hc fuel R M) R ∧
    ∀ C, C ⊆ M → C.Nodup → 3 ≤ C.length →
      RGdisconn (ms_cut_step swO klO hc fuel R M) C := by
  have hCGnodes : (comp_graph R M).g.nodes = M := comp_graph_nodes R hM
  set CG := comp_graph R M with hCG
  set V12 := (if hc then klO CG else swO CG) with hV12
  have hval : V12.1 ≠ [] ∧ V12.2 ≠ [] ∧ (V12.1 ++ V12.2).Perm CG.g.nodes := by
    rw [hV12]
    cases hc
    · simp only [Bool.false_eq_true, if_false]
      exact hswv CG (by rw [hCGnodes]; omega)
    · simp only [if_true]
      exact hklv CG (by rw [hCGnodes]; omega)
  obtain ⟨hV1ne, hV2ne, hpermCG⟩ := hval
  have hpermM : (V12.1 ++ V12.2).Perm M := by rw [← hCGnodes]; exact hpermCG
  have hndV : (V12.1 ++ V12.2).Nodup := hpermM.nodup_iff.mpr hM
  have hV1nd : V12.1.Nodup := hndV.of_append_left
  have hV2nd : V12.2.Nodup := hndV.of_append_right
  have hlensum : V12.1.length + V12.2.length = M.length := by
    have := hpermM.length_eq
    simpa using this
  have hV1pos : 1 ≤ V12.1.length := List.length_pos.mpr hV1ne
  have hV2pos : 1 ≤ V12.2.length := List.length_pos.mpr hV2ne
  have hV1len : V12.1.length < fuel := by omega
  have hV2len : V12.2.length < fuel := by omega
  set cutl := cut_edges_of CG V12.1 V12.2 with hcutl
  set R1 := ms_prune_fold R cutl CG.g.nodes with hR1
  obtain ⟨hwR1, hshR1, hselfR1⟩ := ms_prune_fold_spec CG.g.nodes cutl R hw
  set R2 := (if V12.1.length > 2 then min_cut_split_go swO klO hc fuel R1 V12.1 else R1)
    with hR2
  have hR2spec : TWF R2 ∧ Shrink R2 R1 ∧
      (V12.1.length > 2 → ∀ C, C ⊆ V12.1 → C.Nodup → 3 ≤ C.length → RGdisconn R2 C) := by
    rw [hR2]
    by_cases h : V12.1.length > 2
    · rw [if_pos h]
      obtain ⟨a, b, c⟩ := ih R1 V12.1 hV1nd hwR1 hV1len
      exact ⟨a, b, fun _ => c⟩
    · rw [if_neg h]
      exact ⟨hwR1, shrink_refl R1, fun hcon => absurd hcon h⟩
  obtain ⟨hwR2, hshR2, hinvR2⟩ := hR2spec
  set R3 := (if V12.2.length > 2 then min_cut_split_go swO klO hc fuel R2 V12.2 else R2)
    with hR3
  have hR3spec : TWF R3 ∧ Shrink R3 R2 ∧
      (V12.2.length > 2 → ∀ C, C ⊆ V12.2 → C.Nodup → 3 ≤ C.length → RGdisconn R3 C) := by
    rw [hR3]
    by_cases h : V12.2.length > 2
    · rw [if_pos h]
      obtain ⟨a, b, c⟩ := ih R2 V12.2 hV2nd hwR2 hV2len
      exact ⟨a, b, fun _ => c⟩
    · rw [if_neg h]
      exact ⟨hwR2, shrink_refl R2, fun hcon => absurd hcon h⟩
  obtain ⟨hwR3, hshR3, hinvR3⟩ := hR3spec
  have hfinal : ms_cut_step swO klO hc fuel R M = R3 := by
    rw [hR3, hR2, hR1, hcutl, hV12, hCG]
    rfl
  rw [hfinal]
  refine ⟨hwR3, shrink_trans (shrink_trans hshR3 hshR2) hshR1, ?_⟩
  have hcross : ∀ a ∈ V12.1, ∀ b ∈ V12.2, ∀ z ∈ witL R3 a b, z ∉ M := by
    intro a ha b hb z hz
    have hzR1 : z ∈ witL R1 a b := (shrink_trans hshR3 hshR2) a b z hz
    have haM : a ∈ M := hpermM.mem_iff.mp (List.mem_append_left _ ha)
    have hbM : b ∈ M := hpermM.mem_iff.mp (List.mem_append_right _ hb)
    cases hE : CG.g.hasEdge a b with
    | false =>
      exfalso
      have hnil : witL R a b = [] := by
        by_contra hne
        have hcon := (comp_graph_hasEdge_iff hw hM a b).mpr ⟨haM, hbM, hne⟩
        rw [← hCG] at hcon
        rw [hE] at hcon
        cases hcon
      have hzR := hshR1 a b z hzR1
      rw [hnil] at hzR
      cases hzR
    | true =>
      rcases hasEdge_or_mem hE with hmem | hmem
      · have hcut : (a, b) ∈ cutl := by
          rw [hcutl]
          unfold cut_edges_of
          refine List.mem_filter.mpr ⟨hmem, ?_⟩
          simp [ha, hb]
        have hout := hselfR1 (a, b) hcut z hzR1
        rw [hCGnodes] at hout
        exact hout
      · have hcut : (b, a) ∈ cutl := by
          rw [hcutl]
          unfold cut_edges_of
          refine List.mem_filter.mpr ⟨hmem, ?_⟩
          simp [ha, hb]
        have hz' : z ∈ witL R1 b a := by
          rw [witL_symm hwR1 b a]
          exact hzR1
        have hout := hselfR1 (b, a) hcut z hz'
        rw [hCGnodes] at hout
        exact hout
  intro C hsubC hndC hlenC
  by_cases hCV1 : ∀ a ∈ C, a ∈ V12.1
  · by_cases h21 : V12.1.length > 2
    · exact rgdisconn_of_shrink hshR3 (hinvR2 h21 C (fun {a} ha => hCV1 a ha) hndC hlenC)
    · exfalso
      have := (hndC.subperm fun a ha => hCV1 a ha).length_le
      omega
  · by_cases hCV2 : ∀ a ∈ C, a ∈ V12.2
    · by_cases h22 : V12.2.length > 2
      · exact hinvR3 h22 C (fun {a} ha => hCV2 a ha) hndC hlenC
      · exfalso
        have := (hndC.subperm fun a ha => hCV2 a ha).length_le
        omega
    · push_neg at hCV1 hCV2
      obtain ⟨c1, hc1C, hc1V1⟩ := hCV1
      obtain ⟨c2, hc2C, hc2V2⟩ := hCV2
      have hmemM : ∀ a ∈ C, a ∈ V12.1 ∨ a ∈ V12.2 := fun a ha =>
        List.mem_append.mp (hpermM.mem_iff.mpr (hsubC ha))
      refine ⟨C.filter (fun a => decide (a ∈ V12.1)),
        C.filter (fun a => !decide (a ∈ V12.1)), ?_, ?_,
        List.filter_append_perm _ C, ?_⟩
      · refine List.ne_nil_of_mem (List.mem_filter.mpr ⟨hc2C, ?_⟩)
        rcases hmemM c2 hc2C with h | h
        · simpa using h
        · exact absurd h hc2V2
      · exact List.ne_nil_of_mem (List.mem_filter.mpr ⟨hc1C, by simpa using hc1V1⟩)
      · intro a haA b hbB z hz
        have haV1 : a ∈ V12.1 := by
          have := List.of_mem_filter haA
          simpa using this
        have hbV2 : b ∈ V12.2 := by
          have hbC := List.mem_of_mem_filter hbB
          have hbnV1 : b ∉ V12.1 := by
            have := List.of_mem_filter hbB
            simpa using this
          rcases hmemM b hbC with h | h
          · exact absurd h hbnV1
          · exact h
        intro hzC
        exact hcross a haV1 b hbV2 z hz (hsubC hzC)

/-- The central invariant of `min_cut_split`: the result is wellformed,
its witness sets only shrink, and the constraint graph restricted to any
sub-leaf-set of three or more leaves is disconnected. -/
theorem min_cut_split_go_spec (swO klO : CutFn) (hswv : OracleValid swO)
    (hklv : OracleValid klO) (hc : Bool) :
    ∀ (fuel : ℕ) (R : Triples) (M : List ℕ), M.Nodup → TWF R → M.length < fuel →
      TWF (min_cut_split_go swO klO hc fuel R M) ∧
      Shrink (min_cut_split_go swO klO hc fuel R M) R ∧
      ∀ C, C ⊆ M → C.Nodup → 3 ≤ C.length →
        RGdisconn (min_cut_split_go swO klO hc fuel R M) C := by
  intro fuel
  induction fuel with
  | zero =>
    intro R M _ _ hlen
    exact absurd hlen (Nat.not_lt_zero _)
  | succ fuel ih =>
    intro R M hM hw hlen
    rw [min_cut_split_go_succ]
    by_cases h3 : M.length < 3
    · rw [if_pos h3]
      refine ⟨hw, shrink_refl R, ?_⟩
      intro C hsub hndC hlenC
      exfalso
      have := (hndC.subperm fun a ha => hsub ha).length_le
      omega
    · rw [if_neg h3]
      have hM3 : 3 ≤ M.length := by omega
      have hCGnodes : (comp_graph R M).g.nodes = M := comp_graph_nodes R hM
      have hCGnd : (comp_graph R M).g.nodes.Nodup := by
        rw [hCGnodes]
        exact hM
      by_cases hcomps : (connComps (comp_graph R M).g).length > 1
      · rw [if_pos hcomps]
        have hfold : ∀ (cs : List (List ℕ)) (R0 : Triples),
            (∀ c ∈ cs, c.Nodup ∧ c.length < fuel) → TWF R0 →
            TWF (cs.foldl (fun R comp => min_cut_split_go swO klO hc fuel R comp) R0) ∧
            Shrink (cs.foldl (fun R comp => min_cut_split_go swO klO hc fuel R comp) R0) R0 ∧
            ∀ c ∈ cs, ∀ C, C ⊆ c → C.Nodup → 3 ≤ C.length →
              RGdisconn (cs.foldl (fun R comp => min_cut_split_go swO klO hc fuel R comp) R0) C := by
          intro cs
          induction cs with
          | nil =>
            intro R0 _ hw0
            exact ⟨hw0, shrink_refl R0, fun c hc0 => absurd hc0 (List.not_mem_nil c)⟩
          | cons c cs ihcs =>
            intro R0 hcs hw0
            rw [List.foldl_cons]
            obtain ⟨hnd1, hlt1⟩ := hcs c (List.mem_cons_self _ _)
            obtain ⟨hwf1, hsh1, hinv1⟩ := ih R0 c hnd1 hw0 hlt1
            obtain ⟨hwf2, hsh2, hinv2⟩ := ihcs (min_cut_split_go swO klO hc fuel R0 c)
              (fun c' hc' => hcs c' (List.mem_cons_of_mem _ hc')) hwf1
            refine ⟨hwf2, shrink_trans hsh2 hsh1, ?_⟩
            intro c' hc' C hsubC hndC hlenC
            rcases List.mem_cons.mp hc' with heq | hmem
            · subst heq
              exact rgdisconn_of_shrink hsh2 (hinv1 C hsubC hndC hlenC)
            · exact hinv2 c' hmem C hsubC hndC hlenC
        have hprops : ∀ c ∈ connComps (comp_graph R M).g, c.Nodup ∧ c.length < fuel := by
          intro c hcmem
          refine ⟨comp_nodup _ hCGnd hcmem, ?_⟩
          have h1 : c.length < (comp_graph R M).g.nodes.length :=
            comp_length_lt _ hCGnd (by omega) hcmem
          rw [hCGnodes] at h1
          omega
        obtain ⟨hwF, hshF, hinvF⟩ := hfold (connComps (comp_graph R M).g) R hprops hw
        refine ⟨hwF, hshF, ?_⟩
        intro C hsubC hndC hlenC
        have hCne : C ≠ [] := by
          intro h
          rw [h] at hlenC
          simp at hlenC
        obtain ⟨c0, hc0⟩ := List.exists_mem_of_ne_nil _ hCne
        have hc0CG : c0 ∈ (comp_graph R M).g.nodes := by
          rw [hCGnodes]
          exact hsubC hc0
        obtain ⟨D, hD, hc0D⟩ := (connComps_spec _ hCGnd).2.1 c0 hc0CG
        by_cases hCD : ∀ a ∈ C, a ∈ D
        · exact hinvF D hD C (fun {a} ha => hCD a ha) hndC hlenC
        · push_neg at hCD
          obtain ⟨c1, hc1C, hc1D⟩ := hCD
          refine ⟨C.filter (fun a => decide (a ∈ D)),
            C.filter (fun a => !decide (a ∈ D)), ?_, ?_,
            List.filter_append_perm _ C, ?_⟩
          · exact List.ne_nil_of_mem (List.mem_filter.mpr ⟨hc0, by simpa using hc0D⟩)
          · exact List.ne_nil_of_mem (List.mem_filter.mpr ⟨hc1C, by simpa using hc1D⟩)
          · intro a haA b hbB z hz
            have haD : a ∈ D := by
              have := List.of_mem_filter haA
              simpa using this
            have hbD : b ∉ D := by
              have := List.of_mem_filter hbB
              simpa using this
            have hbC := List.mem_of_mem_filter hbB
            have hbCG : b ∈ (comp_graph R M).g.nodes := by
              rw [hCGnodes]
              exact hsubC hbC
            have hnoE : (comp_graph R M).g.hasEdge a b = false := by
              cases hEE : (comp_graph R M).g.hasEdge a b with
              | false => rfl
              | true => exact absurd (comp_closed _ hCGnd hD haD hbCG hEE) hbD
            have hnil : witL R a b = [] := by
              by_contra hne
              have haM : a ∈ M := hsubC (List.mem_of_mem_filter haA)
              have hbM : b ∈ M := hsubC hbC
              have hcon := (comp_graph_hasEdge_iff hw hM a b).mpr ⟨haM, hbM, hne⟩
              rw [hnoE] at hcon
              cases hcon
            have hzR := hshF a b z hz
            rw [hnil] at hzR
            cases hzR
      · rw [if_neg hcomps]
        exact ms_cut_step_spec swO klO hswv hklv hc fuel ih R M hM hw hlen hM3

theorem BUILD_go_succ (swap : Bool) (fuel : ℕ) (R : Triples) (L : List ℕ)
    (label : ℕ) :
    BUILD_go swap (fuel + 1) R L label =
      if L.length == 1 then
        (if swap then .error (if 0 ∈ L then .typeErr else .keyErr)
         else .ok (emptyGraph.addNode (L.headD 0)))
      else if L.length == 2 then
        (if label == 1 then
          (if swap then
            .error (if 0 ∈ L then (if 1 ∈ L then .typeErr else .keyErr) else .keyErr)
           else .ok ((emptyGraph.addNodes L).addEdge (L.headD 0) ((L.drop 1).headD 0)))
         else .ok (emptyGraph.addNodes L))
      else if (connComps (comp_graph R L).g).length == 1 then .error .inconsistent
      else
        (connComps (comp_graph R L).g).foldlM (fun G C =>
          if label == 1 then
            (BUILD_go false fuel (triple_subset R C) C 0).map fun H => join G H
          else
            (BUILD_go false fuel (triple_subset R C) C 1).map fun H => union G H)
          emptyGraph := rfl

/-- If no recursive call returns the inconsistency error, neither does the
component fold of `BUILD_cograph`. -/
theorem BUILD_fold_no_incons (fuel : ℕ) (R1 : Triples) (label : ℕ) :
    ∀ (cs : List (List ℕ)) (acc : Graph),
      (∀ C' ∈ cs, ∀ lab : ℕ,
        BUILD_go false fuel (triple_subset R1 C') C' lab ≠ .error .inconsistent) →
      (cs.foldlM (fun G C =>
        if label == 1 then
          (BUILD_go false fuel (triple_subset R1 C) C 0).map fun H => join G H
        else
          (BUILD_go false fuel (triple_subset R1 C) C 1).map fun H => union G H)
        acc) ≠ .error .inconsistent := by
  intro cs
  induction cs with
  | nil =>
    intro acc _ h
    rw [List.foldlM_nil] at h
    cases h
  | cons C cs ihcs =>
    intro acc hch h
    rw [List.foldlM_cons] at h
    by_cases hlab : (label == 1) = true
    · rw [if_pos hlab] at h
      cases hres : BUILD_go false fuel (triple_subset R1 C) C 0 with
      | error e =>
        rw [hres] at h
        simp only [Except.map, Bind.bind, Except.bind] at h
        have he : e = PyErr.inconsistent := by
          cases h
          rfl
        subst he
        exact hch C (List.mem_cons_self _ _) 0 hres
      | ok g =>
        rw [hres] at h
        simp only [Except.map, Bind.bind, Except.bind] at h
        exact ihcs (join acc g) (fun C' hc' => hch C' (List.mem_cons_of_mem _ hc')) h
    · rw [if_neg hlab] at h
      cases hres : BUILD_go false fuel (triple_subset R1 C) C 1 with
      | error e =>
        rw [hres] at h
        simp only [Except.map, Bind.bind, Except.bind] at h
        have he : e = PyErr.inconsistent := by
          cases h
          rfl
        subst he
        exact hch C (List.mem_cons_self _ _) 1 hres
      | ok g =>
        rw [hres] at h
        simp only [Except.map, Bind.bind, Except.bind] at h
        exact ihcs (union acc g) (fun C' hc' => hch C' (List.mem_cons_of_mem _ hc')) h

/-- BUILD never raises the inconsistency error when every sub-leaf-set of
three or more leaves has a disconnected constraint graph and the working
triple set agrees with `R'` restricted to the current leaves. -/
theorem BUILD_go_no_incons (R' : Triples) :
    ∀ (fuel : ℕ) (swap : Bool) (R1 : Triples) (C : List ℕ) (label : ℕ),
      TWF R1 → C.Nodup →
      (∀ x y, x ∈ C → y ∈ C → ∀ z, z ∈ witL R1 x y ↔ z ∈ witL R' x y ∧ z ∈ C) →
      (∀ C', C' ⊆ C → C'.Nodup → 3 ≤ C'.length → RGdisconn R' C') →
      BUILD_go swap fuel R1 C label ≠ .error .inconsistent := by
  intro fuel
  induction fuel with
  | zero =>
    intro swap R1 C label _ _ _ _ h
    cases h
  | succ fuel ih =>
    intro swap R1 C label hw hnd hsem hsplit h
    rw [BUILD_go_succ] at h
    by_cases hc1 : C.length = 1
    · rw [if_pos (by simpa using hc1)] at h
      cases swap with
      | false => cases h
      | true =>
        simp only [if_true] at h
        simp only [Except.error.injEq] at h
        split at h <;> cases h
    · rw [if_neg (by simpa using hc1)] at h
      by_cases hc2 : C.length = 2
      · rw [if_pos (by simpa using hc2)] at h
        by_cases hlab : (label == 1) = true
        · rw [if_pos hlab] at h
          cases swap with
          | false => cases h
          | true =>
            simp only [if_true] at h
            simp only [Except.error.injEq] at h
            split at h
            · split at h <;> cases h
            · cases h
        · rw [if_neg hlab] at h
          cases h
      · rw [if_neg (by simpa using hc2)] at h
        by_cases hc0 : C.length = 0
        · have hCnil : C = [] := List.eq_nil_of_length_eq_zero hc0
          subst hCnil
          have hnodes : (comp_graph R1 ([] : List ℕ)).g.nodes = [] :=
            comp_graph_nodes R1 List.nodup_nil
          have hcompsnil : connComps (comp_graph R1 ([] : List ℕ)).g = [] := by
            unfold connComps
            rw [hnodes]
            rfl
          rw [hcompsnil] at h
          simp only [List.length_nil] at h
          rw [if_neg (by simp)] at h
          rw [List.foldlM_nil] at h
          cases h
        · have hc3 : 3 ≤ C.length := by omega
          have hCGnodes : (comp_graph R1 C).g.nodes = C := comp_graph_nodes R1 hnd
          have hCGnd : (comp_graph R1 C).g.nodes.Nodup := by
            rw [hCGnodes]
            exact hnd
          obtain ⟨A, B, hA, hB, hperm, hcrossW⟩ :=
            hsplit C (List.Subset.refl C) hnd hc3
          have hcrossE : ∀ a ∈ A, ∀ b ∈ B, (comp_graph R1 C).g.hasEdge a b = false := by
            intro a haA b hbB
            cases hE : (comp_graph R1 C).g.hasEdge a b with
            | false => rfl
            | true =>
              exfalso
              obtain ⟨haC, hbC, hne⟩ := (comp_graph_hasEdge_iff hw hnd a b).mp hE
              obtain ⟨z, hz⟩ := List.exists_mem_of_ne_nil _ hne
              have := (hsem a b haC hbC z).mp hz
              exact hcrossW a haA b hbB z this.1 this.2
          have h2c : 2 ≤ (connComps (comp_graph R1 C).g).length := by
            refine two_comps_of_split _ hCGnd A B ?_ hA hB hcrossE
            rw [hCGnodes]
            exact hperm
          rw [if_neg (by simp; omega)] at h
          refine BUILD_fold_no_incons fuel R1 label _ emptyGraph ?_ h
          intro C' hC' lab
          have hC'nd : C'.Nodup := comp_nodup _ hCGnd hC'
          have hC'sub : ∀ a ∈ C', a ∈ C := by
            intro a ha
            have := comp_subset_nodes _ hCGnd hC' a ha
            rw [hCGnodes] at this
            exact this
          refine ih false (triple_subset R1 C') C' lab (twf_triple_subset hw C')
            hC'nd ?_ ?_
          · intro x y hx hy z
            rw [witL_triple_subset hx hy]
            rw [List.mem_filter]
            constructor
            · rintro ⟨hz1, hz2⟩
              have hz3 := (hsem x y (hC'sub x hx) (hC'sub y hy) z).mp hz1
              exact ⟨hz3.1, by simpa using hz2⟩
            · rintro ⟨hz1, hz2⟩
              refine ⟨(hsem x y (hC'sub x hx) (hC'sub y hy) z).mpr
                ⟨hz1, hC'sub z hz2⟩, by simpa using hz2⟩
          · intro C'' hsub'' hnd'' hlen''
            exact hsplit C'' (fun {a} ha => hC'sub a (hsub'' ha)) hnd'' hlen''

/-- C1 (amended): `BUILD_cograph(min_cut_split(R, L), L)` never raises the
inconsistency error, provided every witness of `R` lies in `L` (the spec's
canonical situation — `min_cut_edit` always calls with `L = G.nodes`, and
`get_triples` only produces witnesses among `G.nodes`); the counterexample
`C1_counterexample` shows the restriction is necessary.  The bipartition
oracles are assumed to satisfy their spec (a 2-partition into non-empty
sides). -/
theorem C1_min_cut_split_build_consistent (swO klO : CutFn)
    (hswv : OracleValid swO) (hklv : OracleValid klO) (hc : Bool)
    (R : Triples) (L : List ℕ) (hL : L.Nodup) (hw : TWF R)
    (hwit : ∀ x y z, z ∈ witL R x y → z ∈ L) :
    BUILD_cograph (min_cut_split swO klO hc R L) L 0 ≠
      Except.error PyErr.inconsistent := by
  obtain ⟨hwf, hsh, hinv⟩ := min_cut_split_go_spec swO klO hswv hklv hc
    (L.length + 1) R L hL hw (by omega)
  unfold BUILD_cograph min_cut_split
  apply BUILD_go_no_incons (min_cut_split_go swO klO hc (L.length + 1) R L)
    (L.length + 1) true (min_cut_split_go swO klO hc (L.length + 1) R L) L 0
    hwf hL ?_ hinv
  intro x y _ _ z
  constructor
  · intro hz
    exact ⟨hz, hwit x y z (hsh x y z hz)⟩
  · intro hz
    exact hz.1

/-- The concrete oracle `oneRest` (split off the first node) meets the
bipartition contract on graphs with at least three nodes. -/
theorem oneRest_valid : OracleValid oneRest := by
  intro A h3
  unfold oneRest
  rcases hA : A.g.nodes with _ | ⟨v, rest⟩
  · rw [hA] at h3
    simp at h3
  · rw [hA] at h3
    simp only [hA]
    refine ⟨by simp, ?_, by simp⟩
    rcases rest with _ | ⟨w, rest'⟩
    · simp at h3
    · simp

/-- Witness for C1's amended statement: the triple set `{(0,1): [2]}` over
the leaf set `[0, 1, 2]` (all witnesses inside the leaf set). -/
theorem C1_witness :
    OracleValid oneRest ∧ ([0, 1, 2] : List ℕ).Nodup ∧
      TWF [((0, 1), [2])] ∧
      (∀ x y z, z ∈ witL [((0, 1), [2])] x y → z ∈ ([0, 1, 2] : List ℕ)) ∧
      BUILD_cograph (min_cut_split oneRest oneRest false [((0, 1), [2])] [0, 1, 2])
          [0, 1, 2] 0 ≠ Except.error PyErr.inconsistent := by
  have htwf : TWF [((0, 1), [2])] := by
    refine ⟨by decide, ?_, ?_⟩
    · intro k hk
      simp only [List.map_cons, List.map_nil, List.mem_singleton] at hk
      subst hk
      decide
    · intro k1 hk1 k2 hk2 h12 h21
      simp only [List.map_cons, List.map_nil, List.mem_singleton] at hk1 hk2
      subst hk1
      subst hk2
      simp at h12
  have hwit : ∀ x y z, z ∈ witL [((0, 1), [2])] x y → z ∈ ([0, 1, 2] : List ℕ) := by
    intro x y z hz
    obtain ⟨ent, hent, _, hzent⟩ := (mem_witL_iff htwf).mp hz
    rw [List.mem_singleton] at hent
    subst hent
    rw [List.mem_singleton] at hzent
    subst hzent
    decide
  exact ⟨oneRest_valid, by decide, htwf, hwit,
    C1_min_cut_split_build_consistent oneRest oneRest oneRest_valid oneRest_valid
      false [((0, 1), [2])] [0, 1, 2] (by decide) htwf hwit⟩

/-- C6 (amended): whenever `minimal_min_cut_edit(G, iterations)` returns a
graph, its edit count relative to `G` is at most that of the
`min_cut_edit(G)` candidate: every trial only re-adds to the candidate
edges that are present in `G`, so no trial — hence no returned graph — is
worse than the candidate. -/
theorem C6_local_search_no_worse (swO klO : CutFn) (shuf : ShufFn)
    (half_cut R1 R2 : Bool) (G : Graph) (iterations : ℕ) (T H : Graph)
    (hshuf : ∀ i l, (shuf i l).Perm l)
    (hce : min_cut_edit swO klO half_cut R1 R2 G = .ok H)
    (hmin : minimal_min_cut_edit swO klO shuf half_cut R1 R2 G iterations = .ok T) :
    n_edits G T ≤ n_edits G H := by
  simp only [minimal_min_cut_edit, hce, Except.bind, Bind.bind] at hmin
  have htrial : ∀ i : ℕ, n_edits G
      (List.foldl (fun Gt e =>
        if (!is_cograph (Gt.addEdge e.1 e.2)) = true then
          (Gt.addEdge e.1 e.2).removeEdge e.1 e.2
        else Gt.addEdge e.1 e.2) H
        (shuf i (List.filter (fun e => !H.hasEdge e.1 e.2) G.edges))) ≤ n_edits G H := by
    intro i
    obtain ⟨extra, hperm, hex⟩ := trial_edges_inv G H
      (shuf i (List.filter (fun e => !H.hasEdge e.1 e.2) G.edges)) H
      (by
        intro e he
        have he2 : e ∈ List.filter (fun e => !H.hasEdge e.1 e.2) G.edges :=
          (hshuf i _).mem_iff.mp he
        have hm := List.mem_filter.mp he2
        refine ⟨hm.1, ?_⟩
        have hb := hm.2
        cases hb2 : H.hasEdge e.1 e.2
        · rfl
        · rw [hb2] at hb
          exact absurd hb (by decide))
      ⟨[], by simp, by simp⟩
    exact n_edits_le_of_perm_extra G H _ extra hperm hex
  have hloop : ∀ (l : List ℕ) (acc : Option Graph),
      (∀ g, acc = some g → n_edits G g ≤ n_edits G H) →
      ∀ g, (l.foldl (fun G_min i =>
          if n_deletions G (List.foldl (fun Gt e =>
              if (!is_cograph (Gt.addEdge e.1 e.2)) = true then
                (Gt.addEdge e.1 e.2).removeEdge e.1 e.2
              else Gt.addEdge e.1 e.2) H
              (shuf i (List.filter (fun e => !H.hasEdge e.1 e.2) G.edges))) <
              G.edges.length then
            some (List.foldl (fun Gt e =>
              if (!is_cograph (Gt.addEdge e.1 e.2)) = true then
                (Gt.addEdge e.1 e.2).removeEdge e.1 e.2
              else Gt.addEdge e.1 e.2) H
              (shuf i (List.filter (fun e => !H.hasEdge e.1 e.2) G.edges)))
          else G_min) acc) = some g →
        n_edits G g ≤ n_edits G H := by
    intro l
    induction l with
    | nil =>
      intro acc hacc g hg
      exact hacc g hg
    | cons i l ih =>
      intro acc hacc g hg
      rw [List.foldl_cons] at hg
      refine ih _ ?_ g hg
      intro g' hg'
      split at hg'
      · injection hg' with h
        subst h
        exact htrial i
      · exact hacc g' hg'
  have hfin := hloop (List.range iterations) none (by intro g hg; cases hg)
  split at hmin
  · rename_i g heq
    have hb := hfin g heq
    cases hmin
    exact hb
  · exact absurd hmin (by simp)

/-- Witness for C6's amended statement: on the triangle `K3` with one
iteration, both calls return `K3` itself and the inequality holds. -/
theorem C6_witness :
    (∀ i l, (idShuf i l).Perm l) ∧
      min_cut_edit oneRest oneRest false true true K3 = .ok K3 ∧
      minimal_min_cut_edit oneRest oneRest idShuf false true true K3 1 = .ok K3 ∧
      n_edits K3 K3 ≤ n_edits K3 K3 :=
  ⟨fun _ l => List.Perm.refl l, rfl, rfl,
    C6_local_search_no_worse oneRest oneRest idShuf false true true K3 1 K3 K3
      (fun _ l => List.Perm.refl l) rfl rfl⟩

/-- C1 (counterexample): for the triple set `strayR`, whose witnesses lie
outside the leaf set `[0, 1, 2]`, `min_cut_split` prunes nothing (it only
removes witnesses inside the current node set), and `BUILD_cograph` on the
result raises the inconsistency error. -/
theorem C1_counterexample :
    BUILD_cograph (min_cut_split oneRest oneRest false strayR [0, 1, 2])
        [0, 1, 2] 0 = .error .inconsistent := by
  rfl

end CographEditing
